import Mathlib

/-!
# nsc: pull reconciliation, add-account lifecycle and text helpers

A shallow embedding of `cmd/pull.go`, `cmd/addaccount.go` and the helpers of
`cmd/common.go`.  Go values of type `error` are terms built by the constructors
the source uses (`errors.New`, `fmt.Errorf`), `nil` is `none`.  A Go `string`
and a `[]byte` carry the same bytes and the conversions between them are the
identity, so both are `String` here.  Pointer receivers that are mutated
return the mutated value next to the result.

Code that lives outside the files embedded here (the `jwt` and `nkeys`
libraries, the claim store, `TimeParams`, `Entity`) is taken as a parameter:
a record of functions, about which nothing is assumed unless a theorem says so.
-/

set_option autoImplicit false
set_option linter.dupNamespace false

namespace Nsc

/-! ## Errors and formatted messages -/

/-- A Go `error` value, or a formatted message: `new msg` is `errors.New(msg)`
(also any library error with that text), `errorf format args` is
`fmt.Errorf(format, args...)` with string arguments, `wrapf format args cause`
is `fmt.Errorf(format, args..., cause)` whose last argument is an error. The
format is kept uninterpreted. -/
inductive GoError where
  | new (msg : String)
  | errorf (format : String) (args : List String)
  | wrapf (format : String) (args : List String) (cause : GoError)
  deriving DecidableEq, Repr

/-- The string arguments a message was formatted with, outermost first. -/
def GoError.args : GoError → List String
  | .new _ => []
  | .errorf _ as => as
  | .wrapf _ as _ => as

/-! ## Claims (library `jwt`) -/

/-- The type `jwt.ClaimType`, a Go string. -/
abbrev ClaimType := String

/-- The constant `jwt.AccountClaim`. -/
def AccountClaim : ClaimType := "account"
/-- The constant `jwt.OperatorClaim`. -/
def OperatorClaim : ClaimType := "operator"

/-- The struct `jwt.ClaimsData`: the fields every claim carries. Timestamps are `int64` seconds,
only ever compared or copied here; `Type_` is the field `Type`. -/
structure ClaimsData where
  Audience : String
  Expires : Int
  ID : String
  IssuedAt : Int
  Issuer : String
  Name : String
  NotBefore : Int
  Subject : String
  Tags : List String
  Type_ : ClaimType
  deriving DecidableEq, Repr

/-- The struct `jwt.GenericClaims`: the common fields plus an untyped payload. -/
structure GenericClaims where
  data : ClaimsData
  Data : String
  deriving DecidableEq, Repr

/-- The struct `jwt.AccountClaims`. The account-specific payload (`Account`) is never read by the
embedded code and is carried as is. -/
structure AccountClaims where
  data : ClaimsData
  Account : String
  deriving DecidableEq, Repr

/-- The struct `jwt.OperatorClaims` with the operator payload: `AccountServerURL` is read by the
pull command, the remaining operator fields are carried as is. -/
structure OperatorClaims where
  data : ClaimsData
  AccountServerURL : String
  Identities : List String
  SigningKeys : List String
  deriving DecidableEq, Repr

/-- The interface `jwt.Claims` as far as the embedded code meets it: a reference to
an account claim, to an operator claim, or to a claim of some other shape. -/
inductive Claims where
  | account (ac : AccountClaims)
  | operator (oc : OperatorClaims)
  | other (gc : GenericClaims)
  deriving DecidableEq, Repr

/-- The method `Claims()` of `jwt.Claims`: the common fields. -/
def Claims.Claims : Claims → ClaimsData
  | .account ac => ac.data
  | .operator oc => oc.data
  | .other gc => gc.data

/-! ## The external world of the pull command -/

/-- What one HTTP GET of `PullJob.Run` can end in: `c.Get` fails; the response arrives
with a status but reading the body fails; or status and body both arrive. -/
inductive HttpOutcome where
  | getFailed (err : GoError)
  | readFailed (status : Int) (err : GoError)
  | done (status : Int) (body : String)
  deriving DecidableEq, Repr

/-- Everything `pull.go` calls but does not define, over a store state `σ`:
the `jwt` decoders, `http.StatusText`, the claim store, the configured account listing,
the URL helpers and the network (`get i url` is the answer to the GET of job number `i`). -/
structure PullEnv (σ : Type) where
  ParseDecoratedJWT : String → Except GoError String
  DecodeGeneric : String → Except GoError GenericClaims
  DecodeAccountClaims : String → Except GoError AccountClaims
  DecodeOperatorClaims : String → Except GoError OperatorClaims
  StatusText : Int → String
  ReadOperatorClaim : σ → Except GoError OperatorClaims
  ReadAccountClaim : σ → String → Except GoError AccountClaims
  StoreRaw : σ → String → Option GoError × σ
  ListAccounts : σ → Except GoError (List String)
  OperatorJwtURL : OperatorClaims → Except GoError String
  AccountJwtURL : OperatorClaims → AccountClaims → Except GoError String
  get : Nat → String → HttpOutcome

/-- The constant `http.StatusOK`. -/
def StatusOK : Int := 200

/-! ## `PullJob` -/

/-- The struct `PullJob`. -/
structure PullJob where
  Name : String
  ASU : String
  Err : Option GoError
  StoreErr : Option GoError
  LocalClaim : Claims
  Data : String
  StatusCode : Int
  deriving DecidableEq, Repr

variable {σ : Type}

/-- The method `(*PullJob).Token`: the stripped token or an error, and the job, whose `Data` has been
replaced by the stripped token as soon as stripping succeeded. -/
def PullJob.Token (env : PullEnv σ) (j : PullJob) : Except GoError String × PullJob :=
  if j.Data.length = 0 then
    (.error (.new "no data"), j)
  else
    match env.ParseDecoratedJWT j.Data with
    | .error err => (.error err, j)
    | .ok token =>
      let j1 := { j with Data := token }
      match env.DecodeGeneric token with
      | .error err => (.error err, j1)
      | .ok gc =>
        if gc.data.Type_ = AccountClaim then
          match env.DecodeAccountClaims token with
          | .error err => (.error err, j1)
          | .ok _ => (.ok token, j1)
        else if gc.data.Type_ = OperatorClaim then
          match env.DecodeOperatorClaims token with
          | .error err => (.error err, j1)
          | .ok _ => (.ok token, j1)
        else
          (.error (.errorf "unsupported token type: %q" [gc.data.Type_]), j1)

/-- The method `(*PullJob).Error`: `none` is Go's `nil`. The job comes back as `Token` left it. -/
def PullJob.Error (env : PullEnv σ) (j : PullJob) : Option GoError × PullJob :=
  match j.StoreErr with
  | some e => (some (.wrapf "storing %q failed - %v" [j.Name] e), j)
  | none =>
    match j.Err with
    | some e => (some (.wrapf "reading %q failed - %v" [j.Name] e), j)
    | none =>
      if j.StatusCode ≠ StatusOK then
        (some (.errorf "request for %q failed - %s" [j.Name, env.StatusText j.StatusCode]), j)
      else
        match j.Token env with
        | (.error err, j1) => (some (.wrapf "decoding %q failed - %v" [j.Name] err), j1)
        | (.ok _, j1) => (none, j1)

/-- The method `(*PullJob).Run`, given what the GET of `j.ASU` ended in. -/
def PullJob.Run (out : HttpOutcome) (j : PullJob) : PullJob :=
  match out with
  | .getFailed err => { j with Err := some err }
  | .readFailed status err => { j with StatusCode := status, Err := some err }
  | .done status body => { j with StatusCode := status, Data := body }

/-- The type `PullJobs`. -/
abbrev PullJobs := List PullJob

/-- The method `PullJobs.Error`: the error of the first job that has one. -/
def PullJobs.Error (env : PullEnv σ) : PullJobs → Option GoError
  | [] => none
  | j :: jobs =>
    match (j.Error env).1 with
    | some err => some err
    | none => PullJobs.Error env jobs

/-- The method `PullJobs.ErrorCount`: the loop counter `i` after the last job. -/
def PullJobs.ErrorCount (env : PullEnv σ) (jobs : PullJobs) : Nat :=
  jobs.foldl (fun i j => if (j.Error env).1 ≠ none then i + 1 else i) 0

/-! ## The report -/

/-- The status codes of `store.Report` entries that the pull command produces. -/
inductive StatusCode where
  | OK
  | ERR
  deriving DecidableEq, Repr

/-- One entry of a report: its tag and its message. -/
structure Entry where
  code : StatusCode
  msg : GoError
  deriving DecidableEq, Repr

/-- Modelled from the spec: `store.Report` (package `cmd/store`, not among the embedded files),
"a report object holding ordered entries each tagged ok/error, exposing total-error-count".
`Details` are the entries in the order they were added. -/
structure Report where
  detailed : Bool
  Details : List Entry
  deriving DecidableEq, Repr

/-- Modelled from the spec: `store.NewDetailedReport`, a report without entries. -/
def NewDetailedReport (detailed : Bool) : Report :=
  { detailed := detailed, Details := [] }

/-- Modelled from the spec: adding an entry puts it after the entries already there. -/
def Report.Add (r : Report) (e : Entry) : Report :=
  { r with Details := r.Details ++ [e] }

/-- Modelled from the spec: `AddFromError(err)`, an entry tagged error carrying `err`. -/
def Report.AddFromError (r : Report) (err : GoError) : Report :=
  r.Add { code := .ERR, msg := err }

/-- Modelled from the spec: `AddError(format, args...)` with string arguments. -/
def Report.AddError (r : Report) (format : String) (args : List String) : Report :=
  r.Add { code := .ERR, msg := .errorf format args }

/-- Modelled from the spec: `AddError(format, args..., err)` whose last argument is an error. -/
def Report.AddErrorCause (r : Report) (format : String) (args : List String) (err : GoError) :
    Report :=
  r.Add { code := .ERR, msg := .wrapf format args err }

/-- Modelled from the spec: `AddOK(format, args...)`, an entry tagged ok. -/
def Report.AddOK (r : Report) (format : String) (args : List String) : Report :=
  r.Add { code := .OK, msg := .errorf format args }

/-- Modelled from the spec: the total error count of a report, the number of entries tagged error. -/
def Report.errorCount (r : Report) : Nat :=
  (r.Details.filter (fun e => e.code = .ERR)).length

/-! ## `PullParams` -/

/-- The fields of `cobra.Command` the embedded code writes. -/
structure Command where
  SilenceErrors : Bool
  SilenceUsage : Bool
  deriving DecidableEq, Repr

/-- The struct `PullParams`; `Name` is the field of the embedded `AccountContextParams`. -/
structure PullParams where
  Name : String
  All : Bool
  AccountServerURL : String
  Jobs : PullJobs
  Overwrite : Bool
  deriving DecidableEq, Repr

/-- The composite literal `PullJob{ASU: u, Name: name, LocalClaim: c}`: the other fields are zero. -/
def newJob (u name : String) (c : Claims) : PullJob :=
  { Name := name, ASU := u, Err := none, StoreErr := none, LocalClaim := c, Data := "",
    StatusCode := 0 }

/-- The loop `for _, v := range accounts` of `setupJobs`: one job per account, appended to
`p.Jobs`; the first failure returns with the jobs appended so far. -/
def setupAccountJobs (env : PullEnv σ) (s : σ) (oc : OperatorClaims) :
    List String → PullParams → Option GoError × PullParams
  | [], p => (none, p)
  | v :: accounts, p =>
    match env.ReadAccountClaim s v with
    | .error err => (some err, p)
    | .ok ac =>
      match env.AccountJwtURL oc ac with
      | .error err => (some err, p)
      | .ok u =>
        setupAccountJobs env s oc accounts
          { p with Jobs := p.Jobs ++ [newJob u ac.data.Name (.account ac)] }

/-- The method `(*PullParams).setupJobs` on the store `s`. -/
def PullParams.setupJobs (env : PullEnv σ) (s : σ) (p : PullParams) :
    Option GoError × PullParams :=
  match env.ReadOperatorClaim s with
  | .error err => (some err, p)
  | .ok oc =>
    if p.All then
      match env.OperatorJwtURL oc with
      | .error err => (some err, p)
      | .ok u =>
        let p1 := { p with Jobs := p.Jobs ++ [newJob u oc.data.Name (.operator oc)] }
        match env.ListAccounts s with
        | .error err => (some err, p1)
        | .ok accounts => setupAccountJobs env s oc accounts p1
    else
      match env.ReadAccountClaim s p.Name with
      | .error err => (some err, p)
      | .ok ac =>
        match env.AccountJwtURL oc ac with
        | .error err => (some err, p)
        | .ok u => (none, { p with Jobs := p.Jobs ++ [newJob u ac.data.Name (.account ac)] })

/-- The fetch phase of `Run`: every job runs its own GET on its own fields and the loop waits for
all of them, so the jobs after `wg.Wait()` are each job after its `Run`; `i` numbers the
first job of the list. -/
def fetchAll (env : PullEnv σ) : Nat → PullJobs → PullJobs
  | _, [] => []
  | i, j :: jobs => j.Run (env.get i j.ASU) :: fetchAll env (i + 1) jobs

/-- The token `Run` takes from `token, _ := j.Token()`: the empty string when `Token` fails. -/
def tokenOrEmpty (res : Except GoError String) : String :=
  match res with
  | .ok t => t
  | .error _ => ""

/-- What the reconciliation loop of `Run` carries from job to job: the report, the store, and
the arguments of the calls of `StoreRaw` made so far. -/
structure RunState (σ : Type) where
  report : Report
  store : σ
  calls : List String

/-- The format of the conflict entry of `Run`. -/
def conflictFormat : String :=
  "local jwt for %q is newer than remote version - specify --force to overwrite"

/-- The body of the loop `for _, j := range p.Jobs` of `Run`, for one job: the state after it
and the job as the calls of `Error` and `Token` left it. -/
def reconcileJob (env : PullEnv σ) (overwrite : Bool) (st : RunState σ) (j : PullJob) :
    RunState σ × PullJob :=
  match j.Error env with
  | (some err, j1) => ({ st with report := st.report.AddFromError err }, j1)
  | (none, j1) =>
    match j1.Token env with
    | (res, j2) =>
      let token := tokenOrEmpty res
      match env.DecodeGeneric token with
      | .error err =>
        ({ st with report :=
            st.report.AddErrorCause "error decoding remote token for %q: %v" [j2.Name] err }, j2)
      | .ok remoteClaim =>
        let orig := j2.LocalClaim.Claims.IssuedAt
        let remote := remoteClaim.data.IssuedAt
        if orig > remote ∧ ¬ overwrite = true then
          ({ st with report := st.report.AddError conflictFormat [j2.Name] }, j2)
        else
          match env.StoreRaw st.store token with
          | (some err, s1) =>
            ({ report := st.report.AddErrorCause "error storing %q: %v" [j2.Name] err,
               store := s1, calls := st.calls ++ [token] }, j2)
          | (none, s1) =>
            ({ report := st.report.AddOK "pulled %s %q from the remote server"
                 [remoteClaim.data.Type_, j2.Name],
               store := s1, calls := st.calls ++ [token] }, j2)

/-- The loop `for _, j := range p.Jobs` of `Run`: the jobs in list order. -/
def reconcile (env : PullEnv σ) (overwrite : Bool) :
    RunState σ → PullJobs → RunState σ × PullJobs
  | st, [] => (st, [])
  | st, j :: jobs =>
    match reconcileJob env overwrite st j with
    | (st1, j1) =>
      match reconcile env overwrite st1 jobs with
      | (st2, jobs1) => (st2, j1 :: jobs1)

/-- The state in which the reconciliation loop of `Run` starts on the store `s`. -/
def startState (s : σ) : RunState σ :=
  { report := NewDetailedReport true, store := s, calls := [] }

/-- What `(*PullParams).Run` returns and leaves behind: the status (the report) and the error it
returns, the parameters, the command, the store and the arguments of its `StoreRaw` calls. -/
structure RunResult (σ : Type) where
  status : Option Report
  err : Option GoError
  params : PullParams
  cmd : Command
  store : σ
  calls : List String

/-- The method `(*PullParams).Run`. -/
def PullParams.Run (env : PullEnv σ) (cmd : Command) (s : σ) (p : PullParams) : RunResult σ :=
  let cmd1 := { cmd with SilenceUsage := true }
  match p.setupJobs env s with
  | (some err, p1) =>
    { status := none, err := some err, params := p1, cmd := cmd1, store := s, calls := [] }
  | (none, p1) =>
    let fetched := fetchAll env 0 p1.Jobs
    match reconcile env p1.Overwrite (startState s) fetched with
    | (st, jobs) =>
      { status := some st.report, err := none, params := { p1 with Jobs := jobs }, cmd := cmd1,
        store := st.store, calls := st.calls }

/-- What `(*PullParams).Validate` returns and leaves behind: the error, the parameters, and the
number of reads of the store it made. -/
structure PullValidateResult where
  err : Option GoError
  params : PullParams
  storeReads : Nat
  deriving DecidableEq, Repr

/-- The format of the error of `Validate` for an operator without account server URL. -/
def noServerFormat : String :=
  "operator %q doesn't set account server url - unable to pull"

/-- The method `(*PullParams).Validate` on the store `s`; `operatorName` is
`ctx.StoreCtx().Operator.Name`. -/
def PullParams.Validate (env : PullEnv σ) (s : σ) (operatorName : String) (p : PullParams) :
    PullValidateResult :=
  if ¬ p.All = true ∧ p.Name = "" then
    { err := some (.new "specify --all or --account"), params := p, storeReads := 0 }
  else
    match env.ReadOperatorClaim s with
    | .error err => { err := some err, params := p, storeReads := 1 }
    | .ok oc =>
      if oc.AccountServerURL = "" then
        { err := some (.errorf noServerFormat [operatorName]), params := p, storeReads := 1 }
      else
        { err := none, params := p, storeReads := 1 }

/-! ## Notions used to state the properties of the pull command -/

/-- The library contract the reconciliation relies on: stripping an already stripped token
gives it back. (`jwt.ParseDecoratedJWT` returns text without decoration unchanged.) -/
def StripIdempotent (env : PullEnv σ) : Prop :=
  ∀ d t, env.ParseDecoratedJWT d = .ok t → env.ParseDecoratedJWT t = .ok t

/-- The remote `IssuedAt` of a fetched job: that of the generic decoding of its stripped body. -/
def remoteIssuedAt (env : PullEnv σ) (j : PullJob) : Option Int :=
  match env.ParseDecoratedJWT j.Data with
  | .error _ => none
  | .ok t =>
    match env.DecodeGeneric t with
    | .error _ => none
    | .ok gc => some gc.data.IssuedAt

/-- A job that `Run` rejects as a conflict: its `Error` is nil, its local claim was issued after
the remote one, and `Overwrite` is off. -/
def isConflict (env : PullEnv σ) (overwrite : Bool) (j : PullJob) : Bool :=
  decide ((j.Error env).1 = none) && !overwrite &&
    match remoteIssuedAt env j with
    | some remote => decide (j.LocalClaim.Claims.IssuedAt > remote)
    | none => false

/-- The number of jobs of a list that `Run` rejects as conflicts. -/
def conflictCount (env : PullEnv σ) (overwrite : Bool) (jobs : PullJobs) : Nat :=
  (jobs.filter (isConflict env overwrite)).length

/-- The store after the tokens `ts` have been written to `s` in order, each by `StoreRaw`. -/
def storeAfterWrites (env : PullEnv σ) (s : σ) (ts : List String) : σ :=
  ts.foldl (fun st t => (env.StoreRaw st t).2) s

/-- The stripped body of a fetched job, when it strips. -/
def strippedToken (env : PullEnv σ) (j : PullJob) : Option String :=
  match env.ParseDecoratedJWT j.Data with
  | .ok t => some t
  | .error _ => none

/-- The token the pull is to write for a fetched job: the stripped body of a job whose `Error` is
nil and which is no conflict; no token for a job that failed or is a conflict. -/
def writeToken (env : PullEnv σ) (overwrite : Bool) (j : PullJob) : Option String :=
  if (j.Error env).1 = none ∧ isConflict env overwrite j = false then strippedToken env j
  else none

/-- The job `setupJobs` builds for the listed or named account `v`: the account claim `ac` is
read, the URL `u` is derived, and the job is named `ac.Name`, carries `ac` as its local claim
and `u` as its URL, and has nothing fetched yet. -/
def BuiltFor (env : PullEnv σ) (s : σ) (oc : OperatorClaims) (v : String) (j : PullJob) : Prop :=
  ∃ ac u, env.ReadAccountClaim s v = .ok ac ∧ env.AccountJwtURL oc ac = .ok u ∧
    j.Name = ac.data.Name ∧ j.LocalClaim = .account ac ∧ j.ASU = u ∧
    j.Err = none ∧ j.StoreErr = none ∧ j.Data = "" ∧ j.StatusCode = 0

/-! ## `addaccount.go` -/

/-- The type `nkeys.PrefixByte`, a byte. -/
abbrev PrefixByte := Nat

/-- The constant `nkeys.PrefixByteOperator`, `14 << 3`. -/
def PrefixByteOperator : PrefixByte := 112
/-- The constant `nkeys.PrefixByteAccount`. -/
def PrefixByteAccount : PrefixByte := 0
/-- The constant `nkeys.PrefixByteUser`, `20 << 3`. -/
def PrefixByteUser : PrefixByte := 160

/-- A non-nil `nkeys.KeyPair`, known here only by its seed; a nil one is `none`. -/
structure KeyPair where
  seed : String
  deriving DecidableEq, Repr

/-- The struct `TimeParams`: the two flag values. -/
structure TimeParams where
  Start : String
  Expiry : String
  deriving DecidableEq, Repr

/-- The fields of the struct `Entity` that `addaccount.go` reads or writes. (`editFn`, which
`SetDefaults` points at `editAccount`, is not a field here: `editAccount` is applied directly.) -/
structure Entity where
  create : Bool
  kind : PrefixByte
  name : String
  keyPath : String
  generated : Bool
  deriving DecidableEq, Repr

/-- The struct `AddAccountParams`. -/
structure AddAccountParams where
  time : TimeParams
  entity : Entity
  operatorKP : Option KeyPair
  deriving DecidableEq, Repr

/-- What `addaccount.go` reaches through `ActionCtx` and the package globals: the store, the
current command and the value of the global `KeyPathFlag`. -/
structure ActionCtx (σ : Type) where
  store : σ
  cmd : Command
  KeyPathFlag : String

/-- Everything `addaccount.go` calls but does not define, over a store state `σ`. Go functions
that return a value and an error return the pair here, the error last. -/
structure AddEnv (σ : Type) where
  TimeParamsValidate : TimeParams → Option GoError
  IsStartChanged : TimeParams → Bool
  StartDate : TimeParams → Int × Option GoError
  IsExpiryChanged : TimeParams → Bool
  ExpiryDate : TimeParams → Int × Option GoError
  ResolveKey : σ → PrefixByte → String → Option KeyPair × Option GoError
  Valid : Entity → Option GoError × Entity
  GetName : σ → String
  StoreKeys : Entity → String → Option GoError × Entity
  GenerateClaim : σ → Entity → Option KeyPair → Option GoError × Entity × σ

/-- The command `createAddAccountCmd` builds: errors and usage silenced. -/
def createAddAccountCmd : Command :=
  { SilenceErrors := true, SilenceUsage := true }

/-- What `(*AddAccountParams).Validate` returns and leaves behind. -/
structure ValidateResult where
  err : Option GoError
  params : AddAccountParams
  cmd : Command
  deriving DecidableEq, Repr

/-- The method `(*AddAccountParams).Validate`. -/
def AddAccountParams.Validate (env : AddEnv σ) (ctx : ActionCtx σ) (p : AddAccountParams) :
    ValidateResult :=
  if p.entity.name = "" then
    { err := some (.errorf "account name is required" []), params := p,
      cmd := { ctx.cmd with SilenceUsage := false } }
  else
    match env.TimeParamsValidate p.time with
    | some err => { err := some err, params := p, cmd := ctx.cmd }
    | none =>
      match p.operatorKP with
      | none =>
        match env.ResolveKey ctx.store PrefixByteOperator ctx.KeyPathFlag with
        | (kp, some err) => { err := some err, params := { p with operatorKP := kp }, cmd := ctx.cmd }
        | (kp, none) =>
          match env.Valid p.entity with
          | (err, ent) =>
            { err := err, params := { p with operatorKP := kp, entity := ent }, cmd := ctx.cmd }
      | some _ =>
        match env.Valid p.entity with
        | (err, ent) => { err := err, params := { p with entity := ent }, cmd := ctx.cmd }

/-- What `(*AddAccountParams).Run` returns and leaves behind; `signer` is the argument of its
call of `GenerateClaim`, when it got that far. -/
structure AddRunResult (σ : Type) where
  err : Option GoError
  params : AddAccountParams
  store : σ
  signer : Option (Option KeyPair)

/-- The method `(*AddAccountParams).Run`. -/
def AddAccountParams.Run (env : AddEnv σ) (ctx : ActionCtx σ) (p : AddAccountParams) :
    AddRunResult σ :=
  match env.StoreKeys p.entity (env.GetName ctx.store) with
  | (some err, ent) =>
    { err := some err, params := { p with entity := ent }, store := ctx.store, signer := none }
  | (none, ent) =>
    match env.GenerateClaim ctx.store ent p.operatorKP with
    | (err, ent1, s1) =>
      { err := err, params := { p with entity := ent1 }, store := s1,
        signer := some p.operatorKP }

/-- The method `(*AddAccountParams).editAccount`. The argument `c interface{}` is a reference to
the claim being built: `Claims.account` when its dynamic type is `*jwt.AccountClaims`. The claim
comes back as the function left it. -/
def AddAccountParams.editAccount (env : AddEnv σ) (p : AddAccountParams) (c : Claims) :
    Option GoError × Claims :=
  match c with
  | .account ac =>
    let ac1 : AccountClaims :=
      if env.IsStartChanged p.time then
        { ac with data := { ac.data with NotBefore := (env.StartDate p.time).1 } }
      else ac
    let ac2 : AccountClaims :=
      if env.IsExpiryChanged p.time then
        { ac1 with data := { ac1.data with Expires := (env.ExpiryDate p.time).1 } }
      else ac1
    (none, .account ac2)
  | _ => (some (.new "unable to cast to account claim"), c)

/-! ## `common.go`: key validation -/

/-- What `NKeyValidator` calls but does not define: `store.ResolveKey`, `store.KeyType` and the
method `String` of `nkeys.PrefixByte`. -/
structure KeyEnv where
  ResolveKey : String → Except GoError (Option KeyPair)
  KeyType : Option KeyPair → Except GoError PrefixByte
  PrefixByteString : PrefixByte → String

/-- The function `NKeyValidator`: the validator for keys of the kind `kind`. -/
def NKeyValidator (env : KeyEnv) (kind : PrefixByte) : String → Option GoError :=
  fun v =>
    match env.ResolveKey v with
    | .error err => some err
    | .ok nk =>
      match env.KeyType nk with
      | .error err => some err
      | .ok t =>
        if t ≠ kind then
          some (.errorf "specified key is not valid for an %s" [env.PrefixByteString kind])
        else
          none

/-! ## `common.go`: decorated tokens

Text is a list of characters. The three regular expressions of `ExtractToken` are run the way
Go's `regexp` runs them: the leftmost match, and among the matches at one place the one a
backtracking matcher meets first (a greedy `.+` tries its longest stretch first). -/

/-- The function `strings.ToUpper` on ASCII text: the letters `a` to `z` are mapped to `A` to
`Z` and every other character is kept. Go also maps letters outside ASCII; the labels and
numbers the theorems below are about are ASCII text, on which the two agree. -/
def ToUpper (s : String) : String :=
  String.mk (s.toList.map Char.toUpper)

/-- The function `FormatJwt`: the `Fprintf`, `Fprintln`, `Fprintf`, `Fprintln` calls in order. -/
def FormatJwt (jwtType : String) (jwt : String) : String :=
  let label := ToUpper jwtType
  "-----BEGIN " ++ label ++ " JWT-----\n" ++
  (jwt ++ "\n") ++
  ("------END " ++ label ++ " JWT------\n") ++
  "\n"

/-- The class `\s` of Go's `regexp`: tab, newline, form feed, carriage return, space. -/
def isSpace (c : Char) : Bool :=
  c = '\t' || c = '\n' || c = '\x0c' || c = '\r' || c = ' '

/-- The replacement of every match of `\s+` by nothing. -/
def removeSpaces (l : List Char) : List Char :=
  l.filter (fun c => !isSpace c)

/-- The replacement of every match of `\-+` by one dash: a dash followed by a dash is dropped. -/
def collapseDashes : List Char → List Char
  | [] => []
  | c :: rest =>
    if c = '-' ∧ rest.head? = some '-' then collapseDashes rest else c :: collapseDashes rest

/-- The text after the literal `lit` at the head of `l`, if `l` starts with it. -/
def afterLiteral (lit : List Char) (l : List Char) : Option (List Char) :=
  if lit.isPrefixOf l then some (l.drop lit.length) else none

/-- The text after `(JWT|KEY|SEED)\-` at the head of `l`, the alternatives tried in order. -/
def afterKindDash (l : List Char) : Option (List Char) :=
  match afterLiteral "JWT-".toList l with
  | some r => some r
  | none =>
    match afterLiteral "KEY-".toList l with
    | some r => some r
    | none => afterLiteral "SEED-".toList l

/-- The ways `.+` can match at the head of `l`, as pairs of the matched text and the rest, in the
order a greedy matcher tries them: longest first. The dot matches anything but a newline. -/
def dotPlus : List Char → List (List Char × List Char)
  | [] => []
  | c :: cs =>
    if c = '\n' then []
    else (dotPlus cs).map (fun mr => (c :: mr.1, mr.2)) ++ [([c], cs)]

/-- Whether the last group, `\-END.+(JWT|KEY|SEED)\-`, matches at the head of `l`. -/
def matchesEnd (l : List Char) : Bool :=
  match afterLiteral "-END".toList l with
  | none => false
  | some r => (dotPlus r).any (fun mr => (afterKindDash mr.2).isSome)

/-- The group `token`, `.+`, at the head of `l`, followed by the last group: the first stretch,
longest first, after which the last group matches. -/
def matchToken (l : List Char) : Option (List Char) :=
  (dotPlus l).findSome? (fun mr => if matchesEnd mr.2 then some mr.1 else none)

/-- The whole expression at the head of `l`: `\-BEGIN`, then `.+` longest first, then
`(JWT|KEY|SEED)\-`, then the rest of the expression; the result is the group `token`. -/
def matchAt (l : List Char) : Option (List Char) :=
  match afterLiteral "-BEGIN".toList l with
  | none => none
  | some r =>
    (dotPlus r).findSome? (fun mr =>
      match afterKindDash mr.2 with
      | none => none
      | some r1 => matchToken r1)

/-- The group `token` of the leftmost match in `l` (`FindStringSubmatch`), if there is a match. -/
def findToken : List Char → Option (List Char)
  | [] => matchAt []
  | c :: cs =>
    match matchAt (c :: cs) with
    | some t => some t
    | none => findToken cs

/-- The function `ExtractToken`. -/
def ExtractToken (s : String) : String :=
  let w := collapseDashes (removeSpaces s.toList)
  match findToken w with
  | some t => String.mk t
  | none => s

/-! ## `common.go`: `ParseNumber`

The value returned is an `int64`: an integer, wrapped into the 64-bit range where the
source multiplies. The two regular expressions are run as the ones of `ExtractToken` are. -/

/-- The characters of the class `\d` of Go's `regexp`. -/
def digits : List Char :=
  ['0', '1', '2', '3', '4', '5', '6', '7', '8', '9']

/-- The class `\d`. -/
def isDigit (c : Char) : Bool :=
  digits.contains c

/-- The number a run of decimal digits denotes. -/
def decimalValue (l : List Char) : Nat :=
  l.foldl (fun n c => n * 10 + (c.toNat - 48)) 0

/-- The error `strconv.ParseInt` returns for text that is no number. -/
def syntaxError (s : List Char) : GoError :=
  .errorf "strconv.ParseInt: parsing %q: invalid syntax" [String.mk s]

/-- The error `strconv.ParseInt` returns for a number outside the 64-bit range. -/
def rangeError (s : List Char) : GoError :=
  .errorf "strconv.ParseInt: parsing %q: value out of range" [String.mk s]

/-- The library function `strconv.ParseInt(s, 10, 64)`: an optional sign and a run of decimal
digits; a value outside the range of `int64` is an error, returned with the nearest bound. -/
def ParseInt (s : List Char) : Int × Option GoError :=
  match s with
  | [] => (0, some (syntaxError s))
  | c :: cs =>
    let neg := decide (c = '-')
    let ds := if c = '+' ∨ c = '-' then cs else c :: cs
    if ds.isEmpty ∨ ¬ ds.all isDigit = true then (0, some (syntaxError s))
    else
      let un := decimalValue ds
      if ¬ neg = true ∧ un ≥ 2 ^ 63 then (2 ^ 63 - 1, some (rangeError s))
      else if neg = true ∧ un > 2 ^ 63 then (-(2 ^ 63), some (rangeError s))
      else (if neg = true then -(un : Int) else (un : Int), none)

/-- The result of an `int64` operation whose exact result is `x`: `x` wrapped into the range
from `-2^63` to `2^63 - 1`. -/
def wrapInt64 (x : Int) : Int :=
  (x + 2 ^ 63) % 2 ^ 64 - 2 ^ 63

/-- The ways `\d+` can match at the head of `l`, as pairs of the matched text and the rest,
longest first. -/
def digitPlus : List Char → List (List Char × List Char)
  | [] => []
  | c :: cs =>
    if isDigit c then (digitPlus cs).map (fun mr => (c :: mr.1, mr.2)) ++ [([c], cs)]
    else []

/-- The expression `(\d+$)` at the head of `l`: digits up to the end of the text. -/
def matchDigitsEnd (l : List Char) : Option (List Char) :=
  (digitPlus l).findSome? (fun mr => if mr.2.isEmpty then some mr.1 else none)

/-- The leftmost match of `(\d+$)` in `l`, if there is one. -/
def findDigitsEnd : List Char → Option (List Char)
  | [] => none
  | c :: cs =>
    match matchDigitsEnd (c :: cs) with
    | some m => some m
    | none => findDigitsEnd cs

/-- The class `[K|M|G]`: the three letters and the bar. -/
def isUnit (c : Char) : Bool :=
  c = 'K' || c = '|' || c = 'M' || c = 'G'

/-- The expression `(\d+)([K|M|G])` at the head of `l`: the two groups. -/
def matchScaled (l : List Char) : Option (List Char × Char) :=
  (digitPlus l).findSome? (fun mr =>
    match mr.2 with
    | u :: _ => if isUnit u then some (mr.1, u) else none
    | [] => none)

/-- The groups of the leftmost match of `(\d+)([K|M|G])` in `l`, if there is one. -/
def findScaled : List Char → Option (List Char × Char)
  | [] => none
  | c :: cs =>
    match matchScaled (c :: cs) with
    | some m => some m
    | none => findScaled cs

/-- The function `ParseNumber`. -/
def ParseNumber (s : String) : Int × Option GoError :=
  if s = "" then (0, none)
  else
    let s1 := ToUpper s
    match findDigitsEnd s1.toList with
    | some m0 =>
      match ParseInt m0 with
      | (_, some err) => (0, some err)
      | (v, none) => (v, none)
    | none =>
      match findScaled s1.toList with
      | some (m1, m2) =>
        match ParseInt m1 with
        | (_, some err) => (0, some err)
        | (v, none) =>
          if m2 = 'K' then (wrapInt64 (v * 1000), none)
          else if m2 = 'M' then (wrapInt64 (v * 1000000), none)
          else if m2 = 'G' then (wrapInt64 (v * 1000000000), none)
          else (0, some (.errorf "couldn't parse number: %v" [s1]))
      | none => (0, some (.errorf "couldn't parse number: %v" [s1]))

/-! ## A small concrete world

A store that is the list of the tokens written to it, tokens that are short
names, and a network that answers by URL, used to run the definitions on
concrete inputs. -/

/-- Common fields of a sample claim. -/
def sampleData (name : String) (issuedAt : Int) (ty : ClaimType) : ClaimsData :=
  { Audience := "", Expires := 0, ID := "", IssuedAt := issuedAt, Issuer := "OP", Name := name,
    NotBefore := 0, Subject := name, Tags := [], Type_ := ty }

/-- A sample account claim. -/
def sampleAccount (name : String) (issuedAt : Int) : AccountClaims :=
  { data := sampleData name issuedAt AccountClaim, Account := "" }

/-- A sample operator claim. -/
def sampleOperator (issuedAt : Int) : OperatorClaims :=
  { data := sampleData "O" issuedAt OperatorClaim, AccountServerURL := "http://asu",
    Identities := [], SigningKeys := [] }

/-- The sample tokens: `A5` and `A9` are claims of account `A` issued at 5 and 9, `B7` one of
account `B`, `O3` one of the operator, `U1` a user claim; nothing else decodes. -/
def sampleDecode (t : String) : Except GoError ClaimsData :=
  if t = "A5" then .ok (sampleData "A" 5 AccountClaim)
  else if t = "A9" then .ok (sampleData "A" 9 AccountClaim)
  else if t = "B7" then .ok (sampleData "B" 7 AccountClaim)
  else if t = "O3" then .ok (sampleData "O" 3 OperatorClaim)
  else if t = "U1" then .ok (sampleData "U" 1 "user")
  else .error (.new "invalid token")

/-- The sample world. The local store holds the operator `O` (issued at 3) and the accounts `A`
(issued at 7) and `B` (issued at 7); the remote serves `O3`, `A5` for `A` and status 404 for
`B`. Writing to the store never fails and puts the token in front. -/
def sampleEnv : PullEnv (List String) where
  ParseDecoratedJWT d := .ok d
  DecodeGeneric t := (sampleDecode t).map fun d => { data := d, Data := "" }
  DecodeAccountClaims t := (sampleDecode t).map fun d => { data := d, Account := "" }
  DecodeOperatorClaims t := (sampleDecode t).map fun d =>
    { data := d, AccountServerURL := "http://asu", Identities := [], SigningKeys := [] }
  StatusText code := if code = 404 then "Not Found" else "OK"
  ReadOperatorClaim _ := .ok (sampleOperator 3)
  ReadAccountClaim _ name :=
    if name = "A" ∨ name = "B" then .ok (sampleAccount name 7) else .error (.new "no such account")
  StoreRaw s t := (none, t :: s)
  ListAccounts _ := .ok ["A", "B"]
  OperatorJwtURL oc := .ok (oc.AccountServerURL ++ "/operator")
  AccountJwtURL oc ac := .ok (oc.AccountServerURL ++ "/accounts/" ++ ac.data.Subject)
  get _ url :=
    if url = "http://asu/operator" then .done 200 "O3"
    else if url = "http://asu/accounts/A" then .done 200 "A5"
    else .done 404 ""

/-- A fetched job for account `A`: local claim issued at 7, status 200, body `body`. -/
def sampleJob (body : String) : PullJob :=
  { Name := "A", ASU := "http://asu/accounts/A", Err := none, StoreErr := none,
    LocalClaim := .account (sampleAccount "A" 7), Data := body, StatusCode := 200 }

/-- The parameters of `pull --all` before `Run`: no job yet. -/
def samplePullAll : PullParams :=
  { Name := "", All := true, AccountServerURL := "", Jobs := [], Overwrite := false }

/-- A command as `Run` finds it. -/
def sampleCmd : Command :=
  { SilenceErrors := false, SilenceUsage := false }

/-- A sample world for `add account`: a start of `bad` is an invalid time window; the key path
flag `missing` fails to resolve, an empty one resolves to no key and no error, any other to the
key it names; entity validation, key storage and claim generation succeed. -/
def sampleAddEnv : AddEnv (List String) where
  TimeParamsValidate t := if t.Start = "bad" then some (.new "invalid start") else none
  IsStartChanged t := t.Start ≠ ""
  StartDate t := (if t.Start = "1d" then 86400 else 0, none)
  IsExpiryChanged t := t.Expiry ≠ ""
  ExpiryDate t := (if t.Expiry = "2d" then 172800 else 0, none)
  ResolveKey _ _ flag :=
    if flag = "" then (none, none)
    else if flag = "missing" then (none, some (.new "no such key"))
    else (some { seed := flag }, none)
  Valid e := (none, e)
  GetName _ := "O"
  StoreKeys e _ := (none, e)
  GenerateClaim s e _ := (none, e, e.name :: s)

/-- Parameters of `add account --name acct` with the given start flag, after `SetDefaults`. -/
def sampleAddParams (start : String) : AddAccountParams :=
  { time := { Start := start, Expiry := "" },
    entity := { create := true, kind := PrefixByteAccount, name := "acct", keyPath := "",
                generated := false },
    operatorKP := none }

/-- The context of a fresh `add account` command with the given key path flag. -/
def sampleAddCtx (flag : String) : ActionCtx (List String) :=
  { store := [], cmd := createAddAccountCmd, KeyPathFlag := flag }

/-- A sample key resolver: `SO` names an operator key, `SA` an account key, the empty
specification resolves to no key, anything else does not resolve. -/
def sampleKeyEnv : KeyEnv where
  ResolveKey v :=
    if v = "" then .ok none
    else if v = "SO" ∨ v = "SA" then .ok (some { seed := v })
    else .error (.new "invalid key")
  KeyType nk :=
    match nk with
    | none => .error (.new "no key")
    | some kp => if kp.seed = "SO" then .ok PrefixByteOperator else .ok PrefixByteAccount
  PrefixByteString k :=
    if k = PrefixByteOperator then "operator" else if k = PrefixByteAccount then "account"
    else "unknown"

/-- Three fetched jobs for account `A`: a good one, one whose body does not decode, one that
answered 404. -/
def sampleJobs : PullJobs :=
  [sampleJob "A9", sampleJob "zz", { sampleJob "" with StatusCode := 404 }]

/-- The sample world with the listing `B`, `A` and a remote that serves `A9` for `A`: the job
that fails (`B`, status 404) comes before a job that is to be written. -/
def sampleEnvLate : PullEnv (List String) :=
  { sampleEnv with
    ListAccounts := fun _ => .ok ["B", "A"]
    get := fun _ url =>
      if url = "http://asu/operator" then .done 200 "O3"
      else if url = "http://asu/accounts/A" then .done 200 "A9"
      else .done 404 "" }

/-! # Theorems -/

section PullJobFacts


/-- When `Token` succeeds, the token is the stripped body, it decodes generically, and the job
comes back with the token as its `Data`. -/
theorem PullJob.Token_ok (env : PullEnv σ) (j : PullJob) (t : String) (j1 : PullJob)
    (h : j.Token env = (.ok t, j1)) :
    j.Data.length ≠ 0 ∧ env.ParseDecoratedJWT j.Data = .ok t ∧ j1 = { j with Data := t } ∧
    ∃ gc, env.DecodeGeneric t = .ok gc ∧
      ((gc.data.Type_ = AccountClaim ∧ ∃ ac, env.DecodeAccountClaims t = .ok ac) ∨
       (gc.data.Type_ ≠ AccountClaim ∧ gc.data.Type_ = OperatorClaim ∧
          ∃ oc, env.DecodeOperatorClaims t = .ok oc)) := by
  unfold PullJob.Token at h
  split at h
  · simp at h
  · rename_i hlen
    split at h
    · simp at h
    · rename_i token hparse
      simp only at h
      split at h
      · simp at h
      · rename_i gc hgen
        split at h
        · rename_i hty
          split at h
          · simp at h
          · rename_i ac hac
            simp only [Prod.mk.injEq, Except.ok.injEq] at h
            obtain ⟨rfl, rfl⟩ := h
            exact ⟨hlen, hparse, rfl, gc, hgen, Or.inl ⟨hty, ac, hac⟩⟩
        · rename_i hty
          split at h
          · rename_i hop
            split at h
            · simp at h
            · rename_i oc hoc
              simp only [Prod.mk.injEq, Except.ok.injEq] at h
              obtain ⟨rfl, rfl⟩ := h
              exact ⟨hlen, hparse, rfl, gc, hgen, Or.inr ⟨hty, hop, oc, hoc⟩⟩
          · simp at h

theorem AccountClaim_ne_OperatorClaim : AccountClaim ≠ OperatorClaim := by decide

/-- C2. `PullJob.Error` is non-nil exactly when a store error or a transport/read error was
recorded, or the status is not 200, or the body is empty, or it does not strip, or the stripped
token does not decode (generically, or as the claim of its declared type), or its declared type
is neither Account nor Operator. In particular a job without recorded error, with status 200 and
a body that decodes as an Account or Operator claim has a nil `Error`. -/
theorem PullJob_Error_classification (env : PullEnv σ) (j : PullJob) :
    ((j.Error env).1 ≠ none ↔
      (j.StoreErr ≠ none ∨ j.Err ≠ none ∨ j.StatusCode ≠ StatusOK ∨ j.Data.length = 0 ∨
       (∃ e, env.ParseDecoratedJWT j.Data = .error e) ∨
       (∃ t, env.ParseDecoratedJWT j.Data = .ok t ∧
          ((∃ e, env.DecodeGeneric t = .error e) ∨
           ∃ gc, env.DecodeGeneric t = .ok gc ∧
             ((gc.data.Type_ = AccountClaim ∧ ∃ e, env.DecodeAccountClaims t = .error e) ∨
              (gc.data.Type_ = OperatorClaim ∧ ∃ e, env.DecodeOperatorClaims t = .error e) ∨
              (gc.data.Type_ ≠ AccountClaim ∧ gc.data.Type_ ≠ OperatorClaim)))))) ∧
    ((j.StoreErr = none ∧ j.Err = none ∧ j.StatusCode = StatusOK ∧ j.Data.length ≠ 0 ∧
       ∃ t gc, env.ParseDecoratedJWT j.Data = .ok t ∧ env.DecodeGeneric t = .ok gc ∧
         ((gc.data.Type_ = AccountClaim ∧ ∃ ac, env.DecodeAccountClaims t = .ok ac) ∨
          (gc.data.Type_ = OperatorClaim ∧ ∃ oc, env.DecodeOperatorClaims t = .ok oc))) →
      (j.Error env).1 = none) := by
  have hne := AccountClaim_ne_OperatorClaim
  cases hS : j.StoreErr with
  | some e => simp [PullJob.Error, hS]
  | none =>
  cases hE : j.Err with
  | some e => simp [PullJob.Error, hS, hE]
  | none =>
  by_cases hst : j.StatusCode = StatusOK
  swap
  · simp [PullJob.Error, hS, hE, hst]
  by_cases hlen : j.Data.length = 0
  · simp [PullJob.Error, PullJob.Token, hS, hE, hst, hlen]
  cases hp : env.ParseDecoratedJWT j.Data with
  | error e => simp [PullJob.Error, PullJob.Token, hS, hE, hst, hlen, hp]
  | ok t =>
  cases hg : env.DecodeGeneric t with
  | error e => simp [PullJob.Error, PullJob.Token, hS, hE, hst, hlen, hp, hg]
  | ok gc =>
  by_cases hA : gc.data.Type_ = AccountClaim
  · have hO : gc.data.Type_ ≠ OperatorClaim := fun h => hne (hA.symm.trans h)
    cases hac : env.DecodeAccountClaims t with
    | error e => simp [PullJob.Error, PullJob.Token, hS, hE, hst, hlen, hp, hg, hA, hac, hne]
    | ok ac => simp [PullJob.Error, PullJob.Token, hS, hE, hst, hlen, hp, hg, hA, hac, hne]
  · by_cases hO : gc.data.Type_ = OperatorClaim
    · cases hoc : env.DecodeOperatorClaims t with
      | error e =>
        simp [PullJob.Error, PullJob.Token, hS, hE, hst, hlen, hp, hg, hA, hO, hoc, hne.symm]
      | ok oc =>
        simp [PullJob.Error, PullJob.Token, hS, hE, hst, hlen, hp, hg, hA, hO, hoc, hne.symm]
    · simp [PullJob.Error, PullJob.Token, hS, hE, hst, hlen, hp, hg, hA, hO]

/-- C2 at a concrete job: status 200 and the body `A9`, which decodes as an account claim. -/
theorem PullJob_Error_classification_witness :
    ((sampleJob "A9").Error sampleEnv).1 = none :=
  (PullJob_Error_classification sampleEnv (sampleJob "A9")).2
    ⟨rfl, rfl, rfl, by decide, "A9", ⟨sampleData "A" 9 AccountClaim, ""⟩, rfl, by rfl,
      Or.inl ⟨rfl, ⟨sampleData "A" 9 AccountClaim, ""⟩, by rfl⟩⟩

end PullJobFacts

section Reconcile


theorem PullJob.Error_none (env : PullEnv σ) (j : PullJob) (h : (j.Error env).1 = none) :
    ∃ t, j.Token env = (.ok t, (j.Error env).2) := by
  unfold PullJob.Error at h ⊢
  split at h
  · simp at h
  · split at h
    · simp at h
    · split at h
      · simp at h
      · split at h
        · simp at h
        · rename_i hst _ t j1 htok
          exact ⟨t, by simp [htok, not_not.mp hst]⟩

/-- A job whose `Error` is nil: its body strips to a token that decodes, `Error` leaves the token
as the job's `Data`, and the second `Token` call of `Run` yields that same token and leaves the job
as it is. -/
theorem PullJob.second_Token (env : PullEnv σ) (hid : StripIdempotent env) (j : PullJob)
    (h : (j.Error env).1 = none) :
    ∃ t gc, env.ParseDecoratedJWT j.Data = .ok t ∧ env.DecodeGeneric t = .ok gc ∧
      (j.Error env).2 = { j with Data := t } ∧
      tokenOrEmpty (((j.Error env).2).Token env).1 = t ∧
      (((j.Error env).2).Token env).2 = (j.Error env).2 := by
  obtain ⟨t, htok⟩ := PullJob.Error_none env j h
  obtain ⟨_, hparse, hj1, gc, hgen, hty⟩ := PullJob.Token_ok env j t _ htok
  refine ⟨t, gc, hparse, hgen, hj1, ?_⟩
  rw [hj1]
  have hp2 := hid _ _ hparse
  by_cases hlen : t.length = 0
  · have ht : t = "" := by
      cases t with
      | mk l => cases l with
        | nil => rfl
        | cons a l => simp [String.length] at hlen
    simp [PullJob.Token, hlen, tokenOrEmpty, ht]
  · rcases hty with ⟨hA, ac, hac⟩ | ⟨hA, hO, oc, hoc⟩
    · simp [PullJob.Token, hlen, hp2, hgen, hA, hac, tokenOrEmpty]
    · simp [PullJob.Token, hlen, hp2, hgen, hO, hoc, tokenOrEmpty,
        AccountClaim_ne_OperatorClaim.symm]

/-- The loop body on a job whose `Error` is nil, for a library with idempotent stripping: with
`t` the stripped body and `gc` its generic decoding, a conflict adds one error entry and touches
neither the store nor the call list; otherwise `StoreRaw` is called once, with `t`, and a
successful write is followed by one OK entry, a failed one by one error entry. -/
theorem reconcileJob_fetched (env : PullEnv σ) (hid : StripIdempotent env) (ow : Bool)
    (st : RunState σ) (j : PullJob) (h : (j.Error env).1 = none) :
    ∃ t gc, env.ParseDecoratedJWT j.Data = .ok t ∧ env.DecodeGeneric t = .ok gc ∧
      (j.LocalClaim.Claims.IssuedAt > gc.data.IssuedAt ∧ ow = false →
        (reconcileJob env ow st j).1.calls = st.calls ∧
        (reconcileJob env ow st j).1.store = st.store ∧
        ∃ e, (reconcileJob env ow st j).1.report.Details = st.report.Details ++ [e] ∧
          e.code = .ERR ∧ j.Name ∈ e.msg.args) ∧
      (ow = true ∨ gc.data.IssuedAt ≥ j.LocalClaim.Claims.IssuedAt →
        (reconcileJob env ow st j).1.calls = st.calls ++ [t] ∧
        (reconcileJob env ow st j).1.store = (env.StoreRaw st.store t).2 ∧
        ∃ e, (reconcileJob env ow st j).1.report.Details = st.report.Details ++ [e] ∧
          (e.code = .OK ↔ (env.StoreRaw st.store t).1 = none) ∧ j.Name ∈ e.msg.args) := by
  obtain ⟨t, gc, hparse, hgen, hj1, htok, hj2⟩ := PullJob.second_Token env hid j h
  have hE : j.Error env = (none, (j.Error env).2) := Prod.ext h rfl
  generalize (j.Error env).2 = j1 at hE hj1 htok hj2
  have hT : j1.Token env = ((j1.Token env).1, j1) := Prod.ext rfl hj2
  generalize (j1.Token env).1 = res at hT htok
  have hname : j1.Name = j.Name := by rw [hj1]
  have hlocal : j1.LocalClaim = j.LocalClaim := by rw [hj1]
  have hbody : (reconcileJob env ow st j).1 =
      if j.LocalClaim.Claims.IssuedAt > gc.data.IssuedAt ∧ ¬ ow = true then
        { st with report := st.report.AddError conflictFormat [j.Name] }
      else
        match env.StoreRaw st.store t with
        | (some err, s1) =>
          { report := st.report.AddErrorCause "error storing %q: %v" [j.Name] err,
            store := s1, calls := st.calls ++ [t] }
        | (none, s1) =>
          { report := st.report.AddOK "pulled %s %q from the remote server"
              [gc.data.Type_, j.Name],
            store := s1, calls := st.calls ++ [t] } := by
    unfold reconcileJob
    rw [hE]
    simp only
    rw [hT]
    simp only [htok, hgen, hname, hlocal]
    split
    · rfl
    · split <;> rfl
  refine ⟨t, gc, hparse, hgen, ?_, ?_⟩
  · rintro ⟨hgt, how⟩
    rw [hbody, if_pos ⟨hgt, by simp [how]⟩]
    exact ⟨rfl, rfl, _, rfl, rfl, by simp [GoError.args]⟩
  · intro hor
    have hcond : ¬ (j.LocalClaim.Claims.IssuedAt > gc.data.IssuedAt ∧ ¬ ow = true) := by
      rintro ⟨h1, h2⟩
      rcases hor with h3 | h3
      · exact h2 h3
      · exact absurd h1 (not_lt.mpr h3)
    rw [hbody, if_neg hcond]
    cases hS : env.StoreRaw st.store t with
    | mk serr s1 =>
      cases serr with
      | none => exact ⟨rfl, rfl, _, rfl, by simp [Report.AddOK], by simp [GoError.args]⟩
      | some err =>
        exact ⟨rfl, rfl, _, rfl, by simp [Report.AddErrorCause], by simp [GoError.args]⟩

theorem reconcile_append (env : PullEnv σ) (ow : Bool) (l1 l2 : PullJobs) (st : RunState σ) :
    (reconcile env ow st (l1 ++ l2)).1 = (reconcile env ow (reconcile env ow st l1).1 l2).1 := by
  induction l1 generalizing st with
  | nil => simp [reconcile]
  | cons j l1 ih => simp [reconcile, ih]

theorem reconcile_take_succ (env : PullEnv σ) (ow : Bool) (jobs : PullJobs) (st : RunState σ)
    (i : Nat) (hi : i < jobs.length) :
    (reconcile env ow st (jobs.take (i + 1))).1 =
      (reconcileJob env ow (reconcile env ow st (jobs.take i)).1 jobs[i]).1 := by
  rw [List.take_succ, List.getElem?_eq_getElem hi, reconcile_append]
  simp [reconcile]

theorem sampleEnv_idempotent : StripIdempotent sampleEnv := by
  intro d t _
  rfl

theorem PullJob.Token_frame (env : PullEnv σ) (j : PullJob) :
    (j.Token env).2.Name = j.Name ∧ (j.Token env).2.LocalClaim = j.LocalClaim := by
  unfold PullJob.Token
  repeat' split
  all_goals exact ⟨rfl, rfl⟩

theorem PullJob.Error_frame (env : PullEnv σ) (j : PullJob) :
    (j.Error env).2.Name = j.Name ∧ (j.Error env).2.LocalClaim = j.LocalClaim := by
  have hT := PullJob.Token_frame env j
  unfold PullJob.Error
  split
  · exact ⟨rfl, rfl⟩
  · split
    · exact ⟨rfl, rfl⟩
    · split
      · exact ⟨rfl, rfl⟩
      · split
        · rename_i h; rw [h] at hT; exact hT
        · rename_i h; rw [h] at hT; exact hT

theorem PullJob.Error_names (env : PullEnv σ) (j : PullJob) (e : GoError)
    (h : (j.Error env).1 = some e) : j.Name ∈ e.args := by
  unfold PullJob.Error at h
  split at h
  · simp at h; subst h; simp [GoError.args]
  · split at h
    · simp at h; subst h; simp [GoError.args]
    · split at h
      · simp at h; subst h; simp [GoError.args]
      · split at h
        · simp at h; subst h; simp [GoError.args]
        · simp at h

/-- The loop body adds exactly one entry, which names the job, and the entry of a job whose
`Error` is non-nil is an error entry. -/
theorem reconcileJob_one_entry (env : PullEnv σ) (ow : Bool) (st : RunState σ) (j : PullJob) :
    ∃ e, (reconcileJob env ow st j).1.report.Details = st.report.Details ++ [e] ∧
      j.Name ∈ e.msg.args ∧ ((j.Error env).1 ≠ none → e.code = .ERR) := by
  have hEf := PullJob.Error_frame env j
  have hEn := PullJob.Error_names env j
  unfold reconcileJob
  cases hE : j.Error env with
  | mk oe j1 =>
    rw [hE] at hEf hEn
    cases oe with
    | some err =>
      exact ⟨_, rfl, hEn err rfl, fun _ => rfl⟩
    | none =>
      have hTf := PullJob.Token_frame env j1
      have hname : (j1.Token env).2.Name = j.Name := hTf.1.trans hEf.1
      simp only
      split
      · exact ⟨_, rfl, by simp [GoError.args, hname], fun h => absurd rfl h⟩
      · split
        · exact ⟨_, rfl, by simp [GoError.args, hname], fun h => absurd rfl h⟩
        · split
          · exact ⟨_, rfl, by simp [GoError.args, hname], fun h => absurd rfl h⟩
          · exact ⟨_, rfl, by simp [GoError.args, hname], fun h => absurd rfl h⟩

theorem reconcile_details (env : PullEnv σ) (ow : Bool) (jobs : PullJobs) (st : RunState σ) :
    ∃ es, (reconcile env ow st jobs).1.report.Details = st.report.Details ++ es ∧
      es.length = jobs.length := by
  induction jobs generalizing st with
  | nil => exact ⟨[], by simp [reconcile]⟩
  | cons j jobs ih =>
    obtain ⟨e, he, -⟩ := reconcileJob_one_entry env ow st j
    obtain ⟨es, hes, hlen⟩ := ih (reconcileJob env ow st j).1
    refine ⟨e :: es, ?_, by simp [hlen]⟩
    simp only [reconcile]
    rw [hes, he]
    simp

theorem fetchAll_length (env : PullEnv σ) (jobs : PullJobs) (n : Nat) :
    (fetchAll env n jobs).length = jobs.length := by
  induction jobs generalizing n with
  | nil => rfl
  | cons j jobs ih => simp [fetchAll, ih]

theorem PullJob.Run_Name (out : HttpOutcome) (j : PullJob) : (j.Run out).Name = j.Name := by
  cases out <;> rfl

theorem fetchAll_Name (env : PullEnv σ) (jobs : PullJobs) (n i : Nat) (j : PullJob)
    (h : (fetchAll env n jobs)[i]? = some j) : ∃ j0, jobs[i]? = some j0 ∧ j.Name = j0.Name := by
  induction jobs generalizing n i with
  | nil => simp [fetchAll] at h
  | cons j1 jobs ih =>
    cases i with
    | zero =>
      simp [fetchAll] at h
      exact ⟨j1, by simp, by rw [← h, PullJob.Run_Name]⟩
    | succ i =>
      simp [fetchAll] at h
      simpa using ih (n + 1) i h

/-- The entry at position `i` of the report of a whole loop is the one entry the loop body adds
for job `i` in the state the jobs before it left. -/
theorem reconcile_entry (env : PullEnv σ) (ow : Bool) (jobs : PullJobs) (s : σ) (i : Nat)
    (hi : i < jobs.length) :
    ∃ e, (reconcile env ow (startState s) jobs).1.report.Details[i]? = some e ∧
      (reconcileJob env ow (reconcile env ow (startState s) (jobs.take i)).1
          jobs[i]).1.report.Details =
        (reconcile env ow (startState s) (jobs.take i)).1.report.Details ++ [e] ∧
      jobs[i].Name ∈ e.msg.args ∧ ((jobs[i].Error env).1 ≠ none → e.code = .ERR) := by
  obtain ⟨es0, h0, hlen0⟩ := reconcile_details env ow (jobs.take i) (startState s)
  obtain ⟨e, he, hname, herr⟩ :=
    reconcileJob_one_entry env ow (reconcile env ow (startState s) (jobs.take i)).1 jobs[i]
  obtain ⟨es2, h2, -⟩ := reconcile_details env ow (jobs.drop (i + 1))
    (reconcile env ow (startState s) (jobs.take (i + 1))).1
  refine ⟨e, ?_, he, hname, herr⟩
  have hsplit : jobs = jobs.take (i + 1) ++ jobs.drop (i + 1) := (List.take_append_drop _ _).symm
  have hfull : (reconcile env ow (startState s) jobs).1.report.Details =
      (es0 ++ [e]) ++ es2 := by
    conv_lhs => rw [hsplit]
    rw [reconcile_append, h2, reconcile_take_succ env ow jobs _ i hi, he, h0]
    simp [startState, NewDetailedReport]
  have hl : es0.length = i := by
    rw [hlen0, List.length_take]
    omega
  rw [hfull, List.append_assoc, List.getElem?_append_right (by omega)]
  simp [hl]

theorem ErrorCount_foldl (env : PullEnv σ) (jobs : PullJobs) (a : Nat) :
    jobs.foldl (fun i j => if (j.Error env).1 ≠ none then i + 1 else i) a =
      a + PullJobs.ErrorCount env jobs := by
  induction jobs generalizing a with
  | nil => simp [PullJobs.ErrorCount]
  | cons j jobs ih =>
    simp only [PullJobs.ErrorCount, List.foldl_cons]
    rw [ih, ih (if (j.Error env).1 ≠ none then 0 + 1 else 0)]
    split <;> omega

theorem ErrorCount_cons (env : PullEnv σ) (j : PullJob) (jobs : PullJobs) :
    PullJobs.ErrorCount env (j :: jobs) =
      (if (j.Error env).1 ≠ none then 1 else 0) + PullJobs.ErrorCount env jobs := by
  conv_lhs => simp only [PullJobs.ErrorCount, List.foldl_cons]
  rw [ErrorCount_foldl]

theorem errorCount_append_one (r : Report) (e : Entry) (ds : List Entry)
    (h : ds = r.Details ++ [e]) :
    (List.filter (fun e => decide (e.code = .ERR)) ds).length =
      r.errorCount + (if e.code = .ERR then 1 else 0) := by
  subst h
  simp only [Report.errorCount, List.filter_append, List.length_append]
  by_cases hc : e.code = .ERR <;> simp [List.filter, hc]

/-- C4, refuted as stated: `pull --all` in the sample world, where account `B` answers 404 and
account `A` is a conflict. The report has two error entries, but only one job has a non-nil
`Error`, before the loop as well as after it. -/
theorem Run_errorCount_counterexample :
    ∃ r, (samplePullAll.Run sampleEnv sampleCmd []).status = some r ∧ r.errorCount = 2 ∧
      PullJobs.ErrorCount sampleEnv
        (fetchAll sampleEnv 0 (samplePullAll.setupJobs sampleEnv []).2.Jobs) = 1 ∧
      PullJobs.ErrorCount sampleEnv (samplePullAll.Run sampleEnv sampleCmd []).params.Jobs = 1 :=
  ⟨_, rfl, by decide, by decide, by decide⟩

/-- A job whose `Error` is non-nil gets the error as its entry and nothing else happens. -/
theorem reconcileJob_failed (env : PullEnv σ) (ow : Bool) (st : RunState σ) (j : PullJob)
    (err : GoError) (h : (j.Error env).1 = some err) :
    (reconcileJob env ow st j).1 = { st with report := st.report.AddFromError err } := by
  unfold reconcileJob
  cases hE : j.Error env with
  | mk oe j1 =>
    rw [hE] at h
    simp only at h
    subst h
    rfl

theorem isConflict_iff (env : PullEnv σ) (ow : Bool) (j : PullJob) (t : String)
    (gc : GenericClaims) (hE : (j.Error env).1 = none)
    (hp : env.ParseDecoratedJWT j.Data = .ok t) (hg : env.DecodeGeneric t = .ok gc) :
    isConflict env ow j = true ↔
      (j.LocalClaim.Claims.IssuedAt > gc.data.IssuedAt ∧ ow = false) := by
  simp [isConflict, remoteIssuedAt, hE, hp, hg, and_comm]

theorem writeToken_conflict (env : PullEnv σ) (ow : Bool) (j : PullJob)
    (h : isConflict env ow j = true) : writeToken env ow j = none := by
  simp [writeToken, h]

theorem writeToken_write (env : PullEnv σ) (ow : Bool) (j : PullJob) (t : String)
    (hE : (j.Error env).1 = none) (hp : env.ParseDecoratedJWT j.Data = .ok t)
    (h : isConflict env ow j = false) : writeToken env ow j = some t := by
  simp [writeToken, h, hE, strippedToken, hp]

theorem writeToken_failed (env : PullEnv σ) (ow : Bool) (j : PullJob) (err : GoError)
    (hE : (j.Error env).1 = some err) : writeToken env ow j = none := by
  simp [writeToken, hE]

/-- One loop step calls `StoreRaw` with the token to write for the job, if there is one, and
with nothing else. -/
theorem reconcileJob_writes (env : PullEnv σ) (hid : StripIdempotent env) (ow : Bool)
    (st : RunState σ) (j : PullJob) :
    (reconcileJob env ow st j).1.calls = st.calls ++ (writeToken env ow j).toList ∧
    (reconcileJob env ow st j).1.store =
      storeAfterWrites env st.store (writeToken env ow j).toList := by
  cases hE : (j.Error env).1 with
  | some err =>
    rw [reconcileJob_failed env ow st j err hE, writeToken_failed env ow j err hE]
    simp [storeAfterWrites]
  | none =>
    obtain ⟨t, gc, hp, hg, hconf, hwrite⟩ := reconcileJob_fetched env hid ow st j hE
    have hiff := isConflict_iff env ow j t gc hE hp hg
    by_cases hc : j.LocalClaim.Claims.IssuedAt > gc.data.IssuedAt ∧ ow = false
    · obtain ⟨h1, h2, -⟩ := hconf hc
      rw [h1, h2, writeToken_conflict env ow j (hiff.mpr hc)]
      simp [storeAfterWrites]
    · have hor : ow = true ∨ gc.data.IssuedAt ≥ j.LocalClaim.Claims.IssuedAt := by
        by_cases how : ow = true
        · exact Or.inl how
        · right
          have how1 : ow = false := by simpa using how
          exact not_lt.mp (fun hlt => hc ⟨hlt, how1⟩)
      have hnc : isConflict env ow j = false := by
        cases hic : isConflict env ow j with
        | false => rfl
        | true => exact absurd (hiff.mp hic) hc
      obtain ⟨h1, h2, -⟩ := hwrite hor
      rw [h1, h2, writeToken_write env ow j t hE hp hnc]
      simp [storeAfterWrites]

theorem filterMap_cons_toList {α β : Type} (f : α → Option β) (a : α) (l : List α) :
    (a :: l).filterMap f = (f a).toList ++ l.filterMap f := by
  cases h : f a <;> simp [List.filterMap_cons, h]

theorem storeAfterWrites_append (env : PullEnv σ) (s : σ) (l1 l2 : List String) :
    storeAfterWrites env s (l1 ++ l2) = storeAfterWrites env (storeAfterWrites env s l1) l2 := by
  simp [storeAfterWrites, List.foldl_append]

/-- The whole loop calls `StoreRaw` with the tokens to write, in job order, and with nothing
else, and its store is the one those writes leave. -/
theorem reconcile_writes (env : PullEnv σ) (hid : StripIdempotent env) (ow : Bool)
    (jobs : PullJobs) (st : RunState σ) :
    (reconcile env ow st jobs).1.calls = st.calls ++ jobs.filterMap (writeToken env ow) ∧
    (reconcile env ow st jobs).1.store =
      storeAfterWrites env st.store (jobs.filterMap (writeToken env ow)) := by
  induction jobs generalizing st with
  | nil => simp [reconcile, storeAfterWrites]
  | cons j jobs ih =>
    obtain ⟨h1, h2⟩ := reconcileJob_writes env hid ow st j
    obtain ⟨h3, h4⟩ := ih (reconcileJob env ow st j).1
    simp only [reconcile]
    rw [h3, h4, h1, h2, filterMap_cons_toList, storeAfterWrites_append]
    simp

theorem setupAccountJobs_Overwrite (env : PullEnv σ) (s : σ) (oc : OperatorClaims)
    (accounts : List String) (p : PullParams) :
    (setupAccountJobs env s oc accounts p).2.Overwrite = p.Overwrite := by
  induction accounts generalizing p with
  | nil => rfl
  | cons v accounts ih =>
    unfold setupAccountJobs
    split
    · rfl
    · split
      · rfl
      · rw [ih]

theorem setupJobs_Overwrite (env : PullEnv σ) (s : σ) (p : PullParams) :
    (p.setupJobs env s).2.Overwrite = p.Overwrite := by
  unfold PullParams.setupJobs
  split
  · rfl
  · split
    · split
      · rfl
      · simp only
        split
        · rfl
        · rw [setupAccountJobs_Overwrite]
    · split
      · rfl
      · split <;> rfl

/-- What `Run` returns once `setupJobs` has succeeded: the outcome of the loop over the fetched
jobs, run with `p.Overwrite` from the start state. -/
theorem Run_eq_loop (env : PullEnv σ) (cmd : Command) (s : σ) (p p1 : PullParams)
    (h : p.setupJobs env s = (none, p1)) :
    (p.Run env cmd s).err = none ∧
    (p.Run env cmd s).status =
      some (reconcile env p.Overwrite (startState s) (fetchAll env 0 p1.Jobs)).1.report ∧
    (p.Run env cmd s).store =
      (reconcile env p.Overwrite (startState s) (fetchAll env 0 p1.Jobs)).1.store ∧
    (p.Run env cmd s).calls =
      (reconcile env p.Overwrite (startState s) (fetchAll env 0 p1.Jobs)).1.calls := by
  have how : p1.Overwrite = p.Overwrite := by
    have := setupJobs_Overwrite env s p
    rw [h] at this
    exact this
  simp [PullParams.Run, h, how]

/-- The entry of job `i` in the report of the whole loop, for a job whose `Error` is non-nil:
the error itself. -/
theorem reconcile_entry_failed (env : PullEnv σ) (ow : Bool) (jobs : PullJobs) (s : σ) (i : Nat)
    (hi : i < jobs.length) (err : GoError) (h : (jobs[i].Error env).1 = some err) :
    (reconcile env ow (startState s) jobs).1.report.Details[i]? =
      some { code := .ERR, msg := err } := by
  obtain ⟨e, h1, h2, -, -⟩ := reconcile_entry env ow jobs s i hi
  rw [reconcileJob_failed env ow _ jobs[i] err h] at h2
  simp only [Report.AddFromError, Report.Add] at h2
  have := List.append_cancel_left h2
  simp only [List.cons.injEq, and_true] at this
  rw [h1, ← this]

/-- The entry of job `i` in the report of the whole loop, for a job whose `Error` is nil: an
error entry for a conflict, otherwise an OK entry exactly when the write, made to the store the
writes of the jobs before it left, succeeds. -/
theorem reconcile_entry_fetched (env : PullEnv σ) (hid : StripIdempotent env) (ow : Bool)
    (jobs : PullJobs) (s : σ) (i : Nat) (hi : i < jobs.length)
    (h : (jobs[i].Error env).1 = none) :
    ∃ t gc e, env.ParseDecoratedJWT jobs[i].Data = .ok t ∧ env.DecodeGeneric t = .ok gc ∧
      (reconcile env ow (startState s) jobs).1.report.Details[i]? = some e ∧
      jobs[i].Name ∈ e.msg.args ∧
      (jobs[i].LocalClaim.Claims.IssuedAt > gc.data.IssuedAt ∧ ow = false →
        e.code = .ERR ∧ writeToken env ow jobs[i] = none) ∧
      (ow = true ∨ gc.data.IssuedAt ≥ jobs[i].LocalClaim.Claims.IssuedAt →
        writeToken env ow jobs[i] = some t ∧
        (e.code = .OK ↔
          (env.StoreRaw (storeAfterWrites env s ((jobs.take i).filterMap (writeToken env ow)))
            t).1 = none)) := by
  obtain ⟨e, h1, h2, h3, -⟩ := reconcile_entry env ow jobs s i hi
  obtain ⟨t, gc, hp, hg, hconf, hwrite⟩ :=
    reconcileJob_fetched env hid ow (reconcile env ow (startState s) (jobs.take i)).1 jobs[i] h
  have hstore := (reconcile_writes env hid ow (jobs.take i) (startState s)).2
  have hs0 : (startState s).store = s := rfl
  rw [hs0] at hstore
  have hiff := isConflict_iff env ow jobs[i] t gc h hp hg
  refine ⟨t, gc, e, hp, hg, h1, h3, ?_, ?_⟩
  · intro hc
    obtain ⟨-, -, e1, he1, hcode, -⟩ := hconf hc
    rw [h2] at he1
    have := List.append_cancel_left he1
    simp only [List.cons.injEq, and_true] at this
    subst this
    exact ⟨hcode, writeToken_conflict env ow _ (hiff.mpr hc)⟩
  · intro hor
    obtain ⟨-, -, e1, he1, hcode, -⟩ := hwrite hor
    rw [h2] at he1
    have := List.append_cancel_left he1
    simp only [List.cons.injEq, and_true] at this
    subst this
    have hnc : isConflict env ow jobs[i] = false := by
      cases hic : isConflict env ow jobs[i] with
      | false => rfl
      | true =>
        obtain ⟨hgt, how⟩ := hiff.mp hic
        rcases hor with h5 | h5
        · rw [how] at h5; cases h5
        · exact absurd hgt (not_lt.mpr h5)
    rw [hstore] at hcode
    exact ⟨writeToken_write env ow _ t h hp hnc, hcode⟩

theorem take_drop_filterMap {α β : Type} (f : α → Option β) (l : List α) (i : Nat)
    (hi : i < l.length) :
    l.filterMap f =
      (l.take i).filterMap f ++ ((f l[i]).toList ++ (l.drop (i + 1)).filterMap f) := by
  have hsplit : l = l.take i ++ l[i] :: l.drop (i + 1) := by
    rw [← List.drop_eq_getElem_cons hi, List.take_append_drop]
  conv_lhs => rw [hsplit]
  rw [List.filterMap_append, filterMap_cons_toList]

/-- C1. The conflict rule of `PullParams.Run`. After a successful `setupJobs`, let `j` be the
`i`-th fetched job and let its `Error` be nil. Then its body strips to a token `t` that decodes
to a remote claim `gc`; `Run` returns a report with one entry per job whose `i`-th entry `e`
names `j`; the store `Run` leaves is the one its `StoreRaw` calls leave; and
(a) if the local `IssuedAt` is greater than the remote one and `p.Overwrite` is false, `e` is an
error entry and the `StoreRaw` calls of `Run` are those for the jobs before `j` followed by
those for the jobs after `j`: none is made for `j`;
(b) if `p.Overwrite` is true or the remote `IssuedAt` is at least the local one, the `StoreRaw`
calls of `Run` are those for the jobs before `j`, then one call with exactly `t`, then those for
the jobs after `j`, and `e` is an OK entry exactly when that write, made to the store the earlier
writes left, succeeds.
The library is assumed to strip a stripped token to itself. -/
theorem Run_conflict_rule (env : PullEnv σ) (hid : StripIdempotent env) (cmd : Command) (s : σ)
    (p p1 : PullParams) (hsetup : p.setupJobs env s = (none, p1)) (i : Nat) (j : PullJob)
    (hj : (fetchAll env 0 p1.Jobs)[i]? = some j) (h : (j.Error env).1 = none) :
    ∃ t gc r e, env.ParseDecoratedJWT j.Data = .ok t ∧ env.DecodeGeneric t = .ok gc ∧
      (p.Run env cmd s).status = some r ∧ r.Details.length = p1.Jobs.length ∧
      r.Details[i]? = some e ∧ j.Name ∈ e.msg.args ∧
      (p.Run env cmd s).store = storeAfterWrites env s (p.Run env cmd s).calls ∧
      (j.LocalClaim.Claims.IssuedAt > gc.data.IssuedAt ∧ p.Overwrite = false →
        e.code = .ERR ∧
        (p.Run env cmd s).calls =
          ((fetchAll env 0 p1.Jobs).take i).filterMap (writeToken env p.Overwrite) ++
          ((fetchAll env 0 p1.Jobs).drop (i + 1)).filterMap (writeToken env p.Overwrite)) ∧
      (p.Overwrite = true ∨ gc.data.IssuedAt ≥ j.LocalClaim.Claims.IssuedAt →
        (p.Run env cmd s).calls =
          ((fetchAll env 0 p1.Jobs).take i).filterMap (writeToken env p.Overwrite) ++
          t :: ((fetchAll env 0 p1.Jobs).drop (i + 1)).filterMap (writeToken env p.Overwrite) ∧
        (e.code = .OK ↔
          (env.StoreRaw (storeAfterWrites env s
            (((fetchAll env 0 p1.Jobs).take i).filterMap (writeToken env p.Overwrite))) t).1
            = none)) := by
  obtain ⟨-, hstatus, hstore, hcalls⟩ := Run_eq_loop env cmd s p p1 hsetup
  have hi : i < (fetchAll env 0 p1.Jobs).length := by
    rw [List.getElem?_eq_some_iff] at hj
    exact hj.1
  have hji : (fetchAll env 0 p1.Jobs)[i] = j := by
    rw [List.getElem?_eq_getElem hi] at hj
    exact Option.some.inj hj
  obtain ⟨hw1, hw2⟩ :=
    reconcile_writes env hid p.Overwrite (fetchAll env 0 p1.Jobs) (startState s)
  have hc0 : (startState s).calls = [] := rfl
  have hs0 : (startState s).store = s := rfl
  rw [hc0, List.nil_append] at hw1
  rw [hs0] at hw2
  obtain ⟨es, hes, hlen⟩ :=
    reconcile_details env p.Overwrite (fetchAll env 0 p1.Jobs) (startState s)
  obtain ⟨t, gc, e, hp, hg, he, hname, hconf, hwrite⟩ :=
    reconcile_entry_fetched env hid p.Overwrite (fetchAll env 0 p1.Jobs) s i hi (hji ▸ h)
  rw [hji] at hp hname hconf hwrite
  have hsplit := take_drop_filterMap (writeToken env p.Overwrite) (fetchAll env 0 p1.Jobs) i hi
  rw [hji] at hsplit
  refine ⟨t, gc, _, e, hp, hg, hstatus, ?_, he, hname, ?_, ?_, ?_⟩
  · rw [hes, ← fetchAll_length env p1.Jobs 0, ← hlen]
    simp [startState, NewDetailedReport]
  · rw [hstore, hcalls, hw2, hw1]
  · intro hc
    obtain ⟨hcode, hnone⟩ := hconf hc
    refine ⟨hcode, ?_⟩
    rw [hcalls, hw1, hsplit, hnone]
    simp
  · intro hor
    obtain ⟨hsome, hcode⟩ := hwrite hor
    refine ⟨?_, hcode⟩
    rw [hcalls, hw1, hsplit, hsome]
    simp

/-- C1 at `pull --all` in the sample world, at the job of account `A`: the local claim was
issued at 7, the remote serves `A5`, `Overwrite` is false. Its entry, the second of the report,
is an error entry, and the only call of `StoreRaw` is the one for the operator. -/
theorem Run_conflict_rule_witness :
    ∃ r e, (samplePullAll.Run sampleEnv sampleCmd []).status = some r ∧
      r.Details[1]? = some e ∧ e.code = .ERR ∧
      (samplePullAll.Run sampleEnv sampleCmd []).calls = ["O3"] := by
  obtain ⟨t, gc, r, e, hp, hg, hr, -, he, -, -, hconf, -⟩ :=
    Run_conflict_rule sampleEnv sampleEnv_idempotent sampleCmd [] samplePullAll
      (samplePullAll.setupJobs sampleEnv []).2 (by rfl) 1 (sampleJob "A5") (by rfl) (by rfl)
  have ht : t = "A5" := by
    have h1 : (Except.ok "A5" : Except GoError String) = Except.ok t := hp
    injection h1 with h1
    exact h1.symm
  subst ht
  have hgc : gc = { data := sampleData "A" 5 AccountClaim, Data := "" } := by
    have h1 : (Except.ok { data := sampleData "A" 5 AccountClaim, Data := "" } :
        Except GoError GenericClaims) = Except.ok gc := hg
    injection h1 with h1
    exact h1.symm
  subst hgc
  obtain ⟨hcode, hcalls⟩ := hconf ⟨by decide, rfl⟩
  exact ⟨r, e, hr, he, hcode, by rw [hcalls]; decide⟩

/-- C3. Partial failure in `PullParams.Run`. Once `setupJobs` has built the job list
(`p1.Jobs`), `Run` returns a nil error and a report with exactly one entry per job, in job-list
order: entry `i` names job `i`, and for a job whose `Error` is non-nil it is the error entry
carrying that error. No job stops another: for a library that strips a stripped token to
itself, `Run` calls `StoreRaw` once for every job that is to be written (nil `Error`, no
conflict), in job order, whatever the jobs before it ended in, and for no other job; the store
is the one those writes leave; and the entry of a job whose `Error` is nil is an error entry for
a conflict and otherwise an OK entry exactly when its own write succeeds. -/
theorem Run_partial_failure (env : PullEnv σ) (cmd : Command) (s : σ) (p p1 : PullParams)
    (h : p.setupJobs env s = (none, p1)) :
    (p.Run env cmd s).err = none ∧
    ∃ r, (p.Run env cmd s).status = some r ∧ r.Details.length = p1.Jobs.length ∧
      (∀ (i : Nat) (j0 j : PullJob), p1.Jobs[i]? = some j0 →
        (fetchAll env 0 p1.Jobs)[i]? = some j →
        ∃ e, r.Details[i]? = some e ∧ j0.Name ∈ e.msg.args ∧
          (∀ err, (j.Error env).1 = some err →
            e = { code := .ERR, msg := err } ∧ writeToken env p.Overwrite j = none)) ∧
      (StripIdempotent env →
        (p.Run env cmd s).calls =
          (fetchAll env 0 p1.Jobs).filterMap (writeToken env p.Overwrite) ∧
        (p.Run env cmd s).store = storeAfterWrites env s (p.Run env cmd s).calls ∧
        ∀ (i : Nat) (j : PullJob), (fetchAll env 0 p1.Jobs)[i]? = some j →
          (j.Error env).1 = none →
          ∃ t gc e, env.ParseDecoratedJWT j.Data = .ok t ∧ env.DecodeGeneric t = .ok gc ∧
            r.Details[i]? = some e ∧
            (j.LocalClaim.Claims.IssuedAt > gc.data.IssuedAt ∧ p.Overwrite = false →
              e.code = .ERR ∧ writeToken env p.Overwrite j = none) ∧
            (p.Overwrite = true ∨ gc.data.IssuedAt ≥ j.LocalClaim.Claims.IssuedAt →
              writeToken env p.Overwrite j = some t ∧
              (e.code = .OK ↔
                (env.StoreRaw (storeAfterWrites env s
                  (((fetchAll env 0 p1.Jobs).take i).filterMap (writeToken env p.Overwrite)))
                  t).1 = none))) := by
  obtain ⟨herr, hstatus, hstore, hcalls⟩ := Run_eq_loop env cmd s p p1 h
  refine ⟨herr, _, hstatus, ?_, ?_, ?_⟩
  · obtain ⟨es, hes, hlen⟩ := reconcile_details env p.Overwrite (fetchAll env 0 p1.Jobs)
      (startState s)
    rw [hes, ← fetchAll_length env p1.Jobs 0, ← hlen]
    simp [startState, NewDetailedReport]
  · intro i j0 j hj0 hj
    have hi : i < (fetchAll env 0 p1.Jobs).length := by
      rw [List.getElem?_eq_some_iff] at hj
      exact hj.1
    have hji : (fetchAll env 0 p1.Jobs)[i] = j := by
      rw [List.getElem?_eq_getElem hi] at hj
      exact Option.some.inj hj
    obtain ⟨j0a, hj0a, hname⟩ := fetchAll_Name env p1.Jobs 0 i j hj
    rw [hj0] at hj0a
    obtain rfl := Option.some.inj hj0a
    obtain ⟨e, h1, -, h3, -⟩ :=
      reconcile_entry env p.Overwrite (fetchAll env 0 p1.Jobs) s i hi
    rw [hji] at h3
    refine ⟨e, h1, hname ▸ h3, ?_⟩
    intro err herr1
    have h5 := reconcile_entry_failed env p.Overwrite (fetchAll env 0 p1.Jobs) s i hi err
      (hji ▸ herr1)
    rw [h1] at h5
    exact ⟨Option.some.inj h5, writeToken_failed env p.Overwrite j err herr1⟩
  · intro hid
    obtain ⟨hw1, hw2⟩ :=
      reconcile_writes env hid p.Overwrite (fetchAll env 0 p1.Jobs) (startState s)
    have hc0 : (startState s).calls = [] := rfl
    have hs0 : (startState s).store = s := rfl
    rw [hc0, List.nil_append] at hw1
    rw [hs0] at hw2
    refine ⟨by rw [hcalls, hw1], by rw [hstore, hcalls, hw2, hw1], ?_⟩
    intro i j hj hnil
    have hi : i < (fetchAll env 0 p1.Jobs).length := by
      rw [List.getElem?_eq_some_iff] at hj
      exact hj.1
    have hji : (fetchAll env 0 p1.Jobs)[i] = j := by
      rw [List.getElem?_eq_getElem hi] at hj
      exact Option.some.inj hj
    obtain ⟨t, gc, e, hp, hg, he, -, hconf, hwrite⟩ :=
      reconcile_entry_fetched env hid p.Overwrite (fetchAll env 0 p1.Jobs) s i hi (hji ▸ hnil)
    rw [hji] at hp hconf hwrite
    exact ⟨t, gc, e, hp, hg, he, hconf, hwrite⟩

/-- C3 at `pull --all` in the sample world with the listing `B`, `A`: the fetch of `B` answers
404, and the job of `A`, which comes after it, is written all the same. `Run` returns no error,
a report of three entries, and has called `StoreRaw` for the operator and for `A`. -/
theorem Run_partial_failure_witness :
    (samplePullAll.Run sampleEnvLate sampleCmd []).err = none ∧
    (∃ r, (samplePullAll.Run sampleEnvLate sampleCmd []).status = some r ∧
      r.Details.length = 3 ∧
      r.Details[1]? =
        some ⟨.ERR, .errorf "request for %q failed - %s" ["B", "Not Found"]⟩) ∧
    (samplePullAll.Run sampleEnvLate sampleCmd []).calls = ["O3", "A9"] ∧
    (samplePullAll.Run sampleEnvLate sampleCmd []).store = ["A9", "O3"] := by
  have hid : StripIdempotent sampleEnvLate := by
    intro d t _
    rfl
  obtain ⟨h1, r, h2, h3, h4, h5⟩ := Run_partial_failure sampleEnvLate sampleCmd [] samplePullAll
    (samplePullAll.setupJobs sampleEnvLate []).2 (by rfl)
  obtain ⟨h6, h7, -⟩ := h5 hid
  obtain ⟨e, he, -, hfail⟩ := h4 1 (newJob "http://asu/accounts/B" "B" (.account (sampleAccount "B" 7)))
    { newJob "http://asu/accounts/B" "B" (.account (sampleAccount "B" 7)) with StatusCode := 404 }
    (by rfl) (by rfl)
  obtain ⟨hexact, -⟩ := hfail (.errorf "request for %q failed - %s" ["B", "Not Found"]) (by rfl)
  have hcalls : (samplePullAll.Run sampleEnvLate sampleCmd []).calls = ["O3", "A9"] := by
    rw [h6]; decide
  refine ⟨h1, ⟨r, h2, h3, by rw [he, hexact]⟩, hcalls, ?_⟩
  rw [h7, hcalls]
  rfl

/-- The error entries one loop step adds, when stripping is idempotent and the write of this
step, if it makes one, succeeds: one for a job whose `Error` is non-nil, one for a conflict, none
otherwise. -/
theorem reconcileJob_errorCount (env : PullEnv σ) (hid : StripIdempotent env) (ow : Bool)
    (st : RunState σ) (j : PullJob)
    (hw : ∀ t, writeToken env ow j = some t → (env.StoreRaw st.store t).1 = none) :
    (reconcileJob env ow st j).1.report.errorCount =
      st.report.errorCount + (if (j.Error env).1 ≠ none then 1 else 0) +
        (if isConflict env ow j = true then 1 else 0) := by
  cases hE : (j.Error env).1 with
  | some err =>
    obtain ⟨e, he, -, hcode⟩ := reconcileJob_one_entry env ow st j
    have hcode1 : e.code = .ERR := hcode (by simp [hE])
    have := errorCount_append_one st.report e _ he
    simp only [Report.errorCount] at this ⊢
    rw [this]
    simp [isConflict, hE, hcode1]
  | none =>
    obtain ⟨t, gc, hp, hg, hconf, hwrite⟩ := reconcileJob_fetched env hid ow st j hE
    have hiff := isConflict_iff env ow j t gc hE hp hg
    by_cases hc : j.LocalClaim.Claims.IssuedAt > gc.data.IssuedAt ∧ ow = false
    · obtain ⟨-, -, e, he, hcode, -⟩ := hconf hc
      have := errorCount_append_one st.report e _ he
      simp only [Report.errorCount] at this ⊢
      rw [this]
      simp [hiff.mpr hc, hcode]
    · have hor : ow = true ∨ gc.data.IssuedAt ≥ j.LocalClaim.Claims.IssuedAt := by
        by_cases how : ow = true
        · exact Or.inl how
        · right
          have how1 : ow = false := by simpa using how
          exact not_lt.mp (fun hlt => hc ⟨hlt, how1⟩)
      have hnc : isConflict env ow j = false := by
        cases hic : isConflict env ow j with
        | false => rfl
        | true => exact absurd (hiff.mp hic) hc
      obtain ⟨-, -, e, he, hcode, -⟩ := hwrite hor
      have hok : e.code = .OK := hcode.mpr (hw t (writeToken_write env ow j t hE hp hnc))
      have := errorCount_append_one st.report e _ he
      simp only [Report.errorCount] at this ⊢
      rw [this]
      simp [hok, hnc]

theorem reconcile_errorCount (env : PullEnv σ) (hid : StripIdempotent env) (ow : Bool)
    (jobs : PullJobs) (st : RunState σ)
    (hw : ∀ pre t post, jobs.filterMap (writeToken env ow) = pre ++ t :: post →
      (env.StoreRaw (storeAfterWrites env st.store pre) t).1 = none) :
    (reconcile env ow st jobs).1.report.errorCount =
      st.report.errorCount + PullJobs.ErrorCount env jobs + conflictCount env ow jobs := by
  induction jobs generalizing st with
  | nil => simp [reconcile, PullJobs.ErrorCount, conflictCount]
  | cons j jobs ih =>
    have hstep : ∀ t, writeToken env ow j = some t → (env.StoreRaw st.store t).1 = none := by
      intro t ht
      have := hw [] t (jobs.filterMap (writeToken env ow))
        (by rw [filterMap_cons_toList, ht]; rfl)
      simpa [storeAfterWrites] using this
    have hrest : ∀ pre t post, jobs.filterMap (writeToken env ow) = pre ++ t :: post →
        (env.StoreRaw (storeAfterWrites env (reconcileJob env ow st j).1.store pre) t).1
          = none := by
      intro pre t post hsplit
      rw [(reconcileJob_writes env hid ow st j).2, ← storeAfterWrites_append]
      apply hw ((writeToken env ow j).toList ++ pre) t post
      rw [filterMap_cons_toList, hsplit, List.append_assoc]
    simp only [reconcile]
    rw [ih _ hrest, reconcileJob_errorCount env hid ow st j hstep, ErrorCount_cons]
    simp only [conflictCount, List.filter_cons]
    by_cases hc : isConflict env ow j = true
    · simp only [hc, if_true, List.length_cons]
      omega
    · have hc1 : isConflict env ow j = false := by simpa using hc
      simp [hc1]
      omega

/-- C4, amended. When stripping is idempotent and every `StoreRaw` call `Run` makes succeeds
(each call is made to the store the calls before it left), the number of error entries of the
report `Run` returns is the number of fetched jobs whose `Error` is non-nil
(`PullJobs.ErrorCount`) plus the number of jobs rejected as conflicts (nil `Error`, local claim
issued after the remote one, `Overwrite` off); with `Overwrite` on it is `ErrorCount` itself. -/
theorem Run_errorCount (env : PullEnv σ) (hid : StripIdempotent env) (cmd : Command) (s : σ)
    (p p1 : PullParams) (h : p.setupJobs env s = (none, p1))
    (hwrites : ∀ pre t post, (p.Run env cmd s).calls = pre ++ t :: post →
      (env.StoreRaw (storeAfterWrites env s pre) t).1 = none) :
    ∃ r, (p.Run env cmd s).status = some r ∧
      r.errorCount = PullJobs.ErrorCount env (fetchAll env 0 p1.Jobs) +
        conflictCount env p.Overwrite (fetchAll env 0 p1.Jobs) ∧
      (p.Overwrite = true →
        r.errorCount = PullJobs.ErrorCount env (fetchAll env 0 p1.Jobs)) := by
  obtain ⟨-, hstatus, -, hcalls⟩ := Run_eq_loop env cmd s p p1 h
  have hw1 := (reconcile_writes env hid p.Overwrite (fetchAll env 0 p1.Jobs) (startState s)).1
  have hc0 : (startState s).calls = [] := rfl
  rw [hc0, List.nil_append] at hw1
  rw [hcalls, hw1] at hwrites
  have hcount := reconcile_errorCount env hid p.Overwrite (fetchAll env 0 p1.Jobs)
    (startState s) hwrites
  have h0 : (startState s).report.errorCount = 0 := rfl
  rw [h0, Nat.zero_add] at hcount
  refine ⟨_, hstatus, hcount, ?_⟩
  intro how
  rw [hcount]
  have hz : conflictCount env p.Overwrite (fetchAll env 0 p1.Jobs) = 0 := by
    simp [conflictCount, isConflict, how]
  omega

/-- C4, amended, at `pull --all` in the sample world, where every write succeeds: one job whose
`Error` is non-nil and one conflict make two error entries. -/
theorem Run_errorCount_witness :
    StripIdempotent sampleEnv ∧
    ∃ r, (samplePullAll.Run sampleEnv sampleCmd []).status = some r ∧ r.errorCount = 1 + 1 := by
  obtain ⟨r, h1, h2, -⟩ := Run_errorCount sampleEnv sampleEnv_idempotent sampleCmd []
    samplePullAll (samplePullAll.setupJobs sampleEnv []).2 (by rfl) (fun _ _ _ _ => rfl)
  refine ⟨sampleEnv_idempotent, r, h1, ?_⟩
  rw [h2]
  decide

end Reconcile

section SetupJobs


theorem setupAccountJobs_ok (env : PullEnv σ) (s : σ) (oc : OperatorClaims)
    (accounts : List String) (p p1 : PullParams)
    (h : setupAccountJobs env s oc accounts p = (none, p1)) :
    ∃ js, p1 = { p with Jobs := p.Jobs ++ js } ∧ List.Forall₂ (BuiltFor env s oc) accounts js := by
  induction accounts generalizing p with
  | nil =>
    simp only [setupAccountJobs, Prod.mk.injEq, true_and] at h
    exact ⟨[], by simp [← h], List.Forall₂.nil⟩
  | cons v accounts ih =>
    unfold setupAccountJobs at h
    split at h
    · simp at h
    · rename_i ac hac
      split at h
      · simp at h
      · rename_i u hu
        obtain ⟨js, hp1, hall⟩ := ih _ h
        refine ⟨newJob u ac.data.Name (.account ac) :: js, ?_, ?_⟩
        · rw [hp1]; simp
        · exact List.Forall₂.cons ⟨ac, u, hac, hu, rfl, rfl, rfl, rfl, rfl, rfl, rfl⟩ hall

theorem setupAccountJobs_fail (env : PullEnv σ) (s : σ) (oc : OperatorClaims)
    (pre : List String) (v : String) (post : List String) (e : GoError) (p : PullParams)
    (hpre : ∀ w ∈ pre, ∃ ac u, env.ReadAccountClaim s w = .ok ac ∧ env.AccountJwtURL oc ac = .ok u)
    (hv : env.ReadAccountClaim s v = .error e ∨
      ∃ ac, env.ReadAccountClaim s v = .ok ac ∧ env.AccountJwtURL oc ac = .error e) :
    (setupAccountJobs env s oc (pre ++ v :: post) p).1 = some e := by
  induction pre generalizing p with
  | nil =>
    rcases hv with hv | ⟨ac, hac, hu⟩
    · simp [setupAccountJobs, hv]
    · simp [setupAccountJobs, hac, hu]
  | cons w pre ih =>
    obtain ⟨ac, u, hac, hu⟩ := hpre w (by simp)
    simp only [List.cons_append, setupAccountJobs, hac, hu]
    exact ih _ (fun w' hw' => hpre w' (by simp [hw']))

/-- C5. `setupJobs` from an empty job list. With `All` set, success means the operator claim
`oc` and the account listing were read and the jobs are `1 + n` in number: first the operator
job, whose `Name` is `oc.Name`, whose `LocalClaim` is `oc` and whose URL is the operator URL,
then one job per listed account, in listing order, whose `Name` is the name of the account claim
read for that account, whose `LocalClaim` is that claim and whose URL is the one derived from it;
no job has anything fetched yet. Without `All`, success means exactly one job, the one for the
account named `p.Name`. A failure to read the operator claim, to derive the operator URL, to list
the accounts, or the first failure to read an account claim or derive its URL, is the error
`setupJobs` returns. -/
theorem setupJobs_spec (env : PullEnv σ) (s : σ) (p : PullParams) (hempty : p.Jobs = []) :
    (p.All = true → ∀ p1, p.setupJobs env s = (none, p1) →
      ∃ oc u accounts j0 js, env.ReadOperatorClaim s = .ok oc ∧ env.OperatorJwtURL oc = .ok u ∧
        env.ListAccounts s = .ok accounts ∧
        p1.Jobs = j0 :: js ∧ p1.Jobs.length = 1 + accounts.length ∧
        j0.Name = oc.data.Name ∧ j0.LocalClaim = .operator oc ∧ j0.ASU = u ∧
        j0.Err = none ∧ j0.StoreErr = none ∧ j0.Data = "" ∧ j0.StatusCode = 0 ∧
        List.Forall₂ (fun v j =>
          ∃ ac ua, env.ReadAccountClaim s v = .ok ac ∧ env.AccountJwtURL oc ac = .ok ua ∧
            j.Name = ac.data.Name ∧ j.LocalClaim = .account ac ∧ j.ASU = ua ∧
            j.Err = none ∧ j.StoreErr = none ∧ j.Data = "" ∧ j.StatusCode = 0) accounts js) ∧
    (p.All = false → ∀ p1, p.setupJobs env s = (none, p1) →
      ∃ oc ac u j, env.ReadOperatorClaim s = .ok oc ∧ env.ReadAccountClaim s p.Name = .ok ac ∧
        env.AccountJwtURL oc ac = .ok u ∧ p1.Jobs = [j] ∧
        j.Name = ac.data.Name ∧ j.LocalClaim = .account ac ∧ j.ASU = u ∧
        j.Err = none ∧ j.StoreErr = none ∧ j.Data = "" ∧ j.StatusCode = 0) ∧
    (∀ e, env.ReadOperatorClaim s = .error e → (p.setupJobs env s).1 = some e) ∧
    (∀ oc e, env.ReadOperatorClaim s = .ok oc → p.All = true →
      env.OperatorJwtURL oc = .error e → (p.setupJobs env s).1 = some e) ∧
    (∀ oc u e, env.ReadOperatorClaim s = .ok oc → p.All = true →
      env.OperatorJwtURL oc = .ok u → env.ListAccounts s = .error e →
      (p.setupJobs env s).1 = some e) ∧
    (∀ oc u pre v post e, env.ReadOperatorClaim s = .ok oc → p.All = true →
      env.OperatorJwtURL oc = .ok u → env.ListAccounts s = .ok (pre ++ v :: post) →
      (∀ w ∈ pre, ∃ ac u, env.ReadAccountClaim s w = .ok ac ∧ env.AccountJwtURL oc ac = .ok u) →
      (env.ReadAccountClaim s v = .error e ∨
        ∃ ac, env.ReadAccountClaim s v = .ok ac ∧ env.AccountJwtURL oc ac = .error e) →
      (p.setupJobs env s).1 = some e) ∧
    (∀ oc e, env.ReadOperatorClaim s = .ok oc → p.All = false →
      (env.ReadAccountClaim s p.Name = .error e ∨
        ∃ ac, env.ReadAccountClaim s p.Name = .ok ac ∧ env.AccountJwtURL oc ac = .error e) →
      (p.setupJobs env s).1 = some e) := by
  refine ⟨?_, ?_, ?_, ?_, ?_, ?_, ?_⟩
  · intro hall p1 h
    unfold PullParams.setupJobs at h
    split at h
    · simp at h
    · rename_i oc hoc
      rw [if_pos hall] at h
      split at h
      · simp at h
      · rename_i u hu
        simp only at h
        split at h
        · simp at h
        · rename_i accounts hacc
          obtain ⟨js, hp1, hforall⟩ := setupAccountJobs_ok env s oc accounts _ _ h
          refine ⟨oc, u, accounts, newJob u oc.data.Name (.operator oc), js, hoc, hu, hacc, ?_,
            ?_, rfl, rfl, rfl, rfl, rfl, rfl, rfl, hforall⟩
          · rw [hp1, hempty]; rfl
          · rw [hp1, hempty]
            simp [hforall.length_eq]
            omega
  · intro hall p1 h
    unfold PullParams.setupJobs at h
    split at h
    · simp at h
    · rename_i oc hoc
      rw [if_neg (by simp [hall])] at h
      split at h
      · simp at h
      · rename_i ac hac
        split at h
        · simp at h
        · rename_i u hu
          simp only [Prod.mk.injEq, true_and] at h
          exact ⟨oc, ac, u, newJob u ac.data.Name (.account ac), hoc, hac, hu,
            by rw [← h, hempty]; rfl, rfl, rfl, rfl, rfl, rfl, rfl, rfl⟩
  · intro e he
    simp [PullParams.setupJobs, he]
  · intro oc e hoc hall hu
    simp [PullParams.setupJobs, hoc, hall, hu]
  · intro oc u e hoc hall hu hl
    simp [PullParams.setupJobs, hoc, hall, hu, hl]
  · intro oc u pre v post e hoc hall hu hl hpre hv
    simp only [PullParams.setupJobs, hoc, hall, hu, hl, if_true]
    exact setupAccountJobs_fail env s oc pre v post e _ hpre hv
  · intro oc e hoc hall hv
    rcases hv with hv | ⟨ac, hac, hu⟩
    · simp [PullParams.setupJobs, hoc, hall, hv]
    · simp [PullParams.setupJobs, hoc, hall, hac, hu]

/-- C5 at `pull --all` in the sample world, whose operator is `O` and whose listing is `A`, `B`:
three jobs, named `O`, `A` and `B`, the first carrying the operator claim and the others the
account claims. -/
theorem setupJobs_spec_witness :
    samplePullAll.Jobs = [] ∧
    ∃ j0 j1 j2, (samplePullAll.setupJobs sampleEnv []).2.Jobs = [j0, j1, j2] ∧
      j0.Name = "O" ∧ j0.LocalClaim = .operator (sampleOperator 3) ∧
      j1.Name = "A" ∧ j1.LocalClaim = .account (sampleAccount "A" 7) ∧
      j2.Name = "B" ∧ j2.LocalClaim = .account (sampleAccount "B" 7) := by
  obtain ⟨oc, u, accounts, j0, js, hoc, -, hacc, hjobs, -, hn0, hl0, -, -, -, -, -, hall⟩ :=
    (setupJobs_spec sampleEnv [] samplePullAll rfl).1 rfl
      (samplePullAll.setupJobs sampleEnv []).2 (by rfl)
  have h1 : (Except.ok ["A", "B"] : Except GoError (List String)) = Except.ok accounts := hacc
  injection h1 with h1
  subst h1
  have h2 : (Except.ok (sampleOperator 3) : Except GoError OperatorClaims) = Except.ok oc := hoc
  injection h2 with h2
  subst h2
  cases hall with
  | cons hA hrest =>
    cases hrest with
    | cons hB hnil =>
      cases hnil
      obtain ⟨acA, uA, hrA, -, hnA, hlA, -⟩ := hA
      obtain ⟨acB, uB, hrB, -, hnB, hlB, -⟩ := hB
      have h3 : (Except.ok (sampleAccount "A" 7) : Except GoError AccountClaims) =
          Except.ok acA := hrA
      injection h3 with h3
      subst h3
      have h4 : (Except.ok (sampleAccount "B" 7) : Except GoError AccountClaims) =
          Except.ok acB := hrB
      injection h4 with h4
      subst h4
      exact ⟨rfl, _, _, _, hjobs, hn0, hl0, hnA, hlA, hnB, hlB⟩

end SetupJobs

section AddAccount


/-- C6, refuted as stated: `add account --name acct` with an invalid time window. `Validate`
returns an error and the usage text is still silenced, as `createAddAccountCmd` set it. -/
theorem Validate_usage_counterexample :
    (AddAccountParams.Validate sampleAddEnv (sampleAddCtx "SO") (sampleAddParams "bad")).err =
      some (.new "invalid start") ∧
    (AddAccountParams.Validate sampleAddEnv (sampleAddCtx "SO")
      (sampleAddParams "bad")).cmd.SilenceUsage = true := by
  decide

/-- C6, amended. `Validate` un-silences the usage text exactly on its missing-name failure:
with an empty name it fails and leaves `SilenceUsage` false; with a name it leaves the command
as it found it, whether it then fails (time window, operator key, entity validation) or not. -/
theorem Validate_usage (env : AddEnv σ) (ctx : ActionCtx σ) (p : AddAccountParams) :
    (p.entity.name = "" →
      (p.Validate env ctx).err = some (.errorf "account name is required" []) ∧
      (p.Validate env ctx).cmd.SilenceUsage = false) ∧
    (p.entity.name ≠ "" → (p.Validate env ctx).cmd = ctx.cmd) := by
  constructor
  · intro hname
    simp [AddAccountParams.Validate, hname]
  · intro hname
    unfold AddAccountParams.Validate
    rw [if_neg hname]
    repeat' split
    all_goals rfl

/-- C6, amended, at `add account --name acct` with a key that does not resolve: `Validate`
fails and the command is as `createAddAccountCmd` built it. -/
theorem Validate_usage_witness :
    (sampleAddParams "").entity.name ≠ "" ∧
    ((sampleAddParams "").Validate sampleAddEnv (sampleAddCtx "missing")).cmd =
      createAddAccountCmd :=
  ⟨by decide,
   (Validate_usage sampleAddEnv (sampleAddCtx "missing") (sampleAddParams "")).2 (by decide)⟩

/-- C9. `editAccount` fails exactly when the value is not an account claim, with the cast
error and the value untouched. On an account claim it succeeds; `NotBefore` becomes the start
date if the start was changed and `Expires` the expiry date if the expiry was changed, each is
kept otherwise, and every other field of the claim is as before. -/
theorem editAccount_spec (env : AddEnv σ) (p : AddAccountParams) (c : Claims) :
    ((p.editAccount env c).1 ≠ none ↔ ∀ ac, c ≠ .account ac) ∧
    ((p.editAccount env c).1 ≠ none →
      (p.editAccount env c).1 = some (.new "unable to cast to account claim") ∧
      (p.editAccount env c).2 = c) ∧
    (∀ ac, c = .account ac →
      (p.editAccount env c).1 = none ∧
      ∃ ac1, (p.editAccount env c).2 = .account ac1 ∧
        ac1.data.NotBefore =
          (if env.IsStartChanged p.time then (env.StartDate p.time).1 else ac.data.NotBefore) ∧
        ac1.data.Expires =
          (if env.IsExpiryChanged p.time then (env.ExpiryDate p.time).1 else ac.data.Expires) ∧
        ac1 = { ac with data :=
          { ac.data with NotBefore := ac1.data.NotBefore, Expires := ac1.data.Expires } }) := by
  cases c with
  | account ac =>
    refine ⟨by simp [AddAccountParams.editAccount], by simp [AddAccountParams.editAccount], ?_⟩
    intro ac0 h
    injection h with h
    subst h
    refine ⟨rfl, _, rfl, ?_, ?_, ?_⟩
    · by_cases h1 : env.IsStartChanged p.time <;> by_cases h2 : env.IsExpiryChanged p.time <;>
        simp [h1, h2]
    · by_cases h1 : env.IsStartChanged p.time <;> by_cases h2 : env.IsExpiryChanged p.time <;>
        simp [h1, h2]
    · by_cases h1 : env.IsStartChanged p.time <;> by_cases h2 : env.IsExpiryChanged p.time <;>
        simp [h1, h2]
  | operator oc => simp [AddAccountParams.editAccount]
  | other gc => simp [AddAccountParams.editAccount]

/-- C9 at an account claim and a start flag of one day: `NotBefore` is set, `Expires` is kept. -/
theorem editAccount_spec_witness :
    ((sampleAddParams "1d").editAccount sampleAddEnv (.account (sampleAccount "acct" 0))).1 = none ∧
    ∃ ac1, ((sampleAddParams "1d").editAccount sampleAddEnv
        (.account (sampleAccount "acct" 0))).2 = .account ac1 ∧
      ac1.data.NotBefore = 86400 ∧ ac1.data.Expires = 0 := by
  obtain ⟨h1, ac1, h2, h3, h4, -⟩ :=
    (editAccount_spec sampleAddEnv (sampleAddParams "1d")
      (.account (sampleAccount "acct" 0))).2.2 _ rfl
  exact ⟨h1, ac1, h2, h3, h4⟩

end AddAccount

section KeyValidation

/-- C8. The validator `NKeyValidator kind` returns nil exactly when the specification resolves
to a key whose kind is determined and is `kind`; when it resolves to a key of another kind the
validator fails with the error whose argument is the name of the expected kind. -/
theorem NKeyValidator_spec (env : KeyEnv) (kind : PrefixByte) (v : String) :
    (NKeyValidator env kind v = none ↔
      ∃ nk, env.ResolveKey v = .ok nk ∧ env.KeyType nk = .ok kind) ∧
    (∀ nk t, env.ResolveKey v = .ok nk → env.KeyType nk = .ok t → t ≠ kind →
      NKeyValidator env kind v =
        some (.errorf "specified key is not valid for an %s" [env.PrefixByteString kind])) := by
  constructor
  · unfold NKeyValidator
    cases hr : env.ResolveKey v with
    | error e => simp
    | ok nk =>
      cases hk : env.KeyType nk with
      | error e => simp [hk]
      | ok t =>
        by_cases ht : t = kind
        · simp [hk, ht]
        · simp [hk, ht]
  · intro nk t hr hk ht
    simp [NKeyValidator, hr, hk, ht]

/-- C8 at concrete keys: the operator seed passes the operator validator, and the account seed
is refused by it with the error naming `operator`. -/
theorem NKeyValidator_spec_witness :
    NKeyValidator sampleKeyEnv PrefixByteOperator "SO" = none ∧
    NKeyValidator sampleKeyEnv PrefixByteOperator "SA" =
      some (.errorf "specified key is not valid for an %s" ["operator"]) :=
  ⟨(NKeyValidator_spec sampleKeyEnv PrefixByteOperator "SO").1.mpr
      ⟨some { seed := "SO" }, by rfl, by rfl⟩,
   (NKeyValidator_spec sampleKeyEnv PrefixByteOperator "SA").2 (some { seed := "SA" })
      PrefixByteAccount (by rfl) (by rfl) (by decide)⟩

end KeyValidation

section Decoration

/-- C10 at a failing input: the label `account` and the token `a--b`, made of JWT characters.
`FormatJwt` keeps the token, but `ExtractToken` collapses the two dashes inside it and returns
`a-b`, not the token. -/
theorem ExtractToken_FormatJwt_collapses :
    FormatJwt "account" "a--b" = "-----BEGIN ACCOUNT JWT-----\na--b\n------END ACCOUNT JWT------\n\n" ∧
    ExtractToken (FormatJwt "account" "a--b") = "a-b" ∧
    ExtractToken (FormatJwt "account" "a--b") ≠ "a--b" := by
  decide

end Decoration

section Aggregate

variable {σ : Type}

theorem PullJobs.Error_cons (env : PullEnv σ) (j : PullJob) (jobs : PullJobs) :
    PullJobs.Error env (j :: jobs) =
      match (j.Error env).1 with
      | some err => some err
      | none => PullJobs.Error env jobs := rfl

/-- C11. For every job list: `PullJobs.Error` is nil exactly when `PullJobs.ErrorCount` is 0;
`ErrorCount` is the number of jobs whose `Error` is non-nil; and `PullJobs.Error` returns `e`
exactly when `e` is the error of the first job, in list order, whose `Error` is non-nil. -/
theorem PullJobs_Error_ErrorCount (env : PullEnv σ) (jobs : PullJobs) :
    (PullJobs.Error env jobs = none ↔ PullJobs.ErrorCount env jobs = 0) ∧
    PullJobs.ErrorCount env jobs = (jobs.filter (fun j => (j.Error env).1.isSome)).length ∧
    (∀ e, PullJobs.Error env jobs = some e ↔
      ∃ pre j post, jobs = pre ++ j :: post ∧ (∀ k ∈ pre, (k.Error env).1 = none) ∧
        (j.Error env).1 = some e) := by
  induction jobs with
  | nil =>
    refine ⟨by simp [PullJobs.Error, PullJobs.ErrorCount], by simp [PullJobs.ErrorCount], ?_⟩
    intro e
    simp [PullJobs.Error]
  | cons j jobs ih =>
    obtain ⟨ih1, ih2, ih3⟩ := ih
    rw [PullJobs.Error_cons, ErrorCount_cons]
    cases hE : (j.Error env).1 with
    | some err =>
      refine ⟨by simp, by simp [List.filter_cons, hE, ih2]; omega, ?_⟩
      intro e
      constructor
      · intro h
        simp only [Option.some.injEq] at h
        exact ⟨[], j, jobs, rfl, by simp, by rw [hE, h]⟩
      · rintro ⟨pre, j1, post, hsplit, hpre, hj1⟩
        cases pre with
        | nil =>
          simp only [List.nil_append, List.cons.injEq] at hsplit
          obtain ⟨rfl, -⟩ := hsplit
          rw [hE] at hj1
          simpa using hj1
        | cons k pre =>
          simp only [List.cons_append, List.cons.injEq] at hsplit
          obtain ⟨rfl, -⟩ := hsplit
          have := hpre j (by simp)
          rw [hE] at this
          simp at this
    | none =>
      refine ⟨by simpa using ih1, by simp [List.filter_cons, hE, ih2], ?_⟩
      intro e
      simp only
      rw [ih3 e]
      constructor
      · rintro ⟨pre, j1, post, hsplit, hpre, hj1⟩
        refine ⟨j :: pre, j1, post, by simp [hsplit], ?_, hj1⟩
        intro k hk
        rcases List.mem_cons.mp hk with rfl | hk
        · exact hE
        · exact hpre k hk
      · rintro ⟨pre, j1, post, hsplit, hpre, hj1⟩
        cases pre with
        | nil =>
          simp only [List.nil_append, List.cons.injEq] at hsplit
          obtain ⟨rfl, -⟩ := hsplit
          rw [hE] at hj1
          simp at hj1
        | cons k pre =>
          simp only [List.cons_append, List.cons.injEq] at hsplit
          obtain ⟨rfl, rfl⟩ := hsplit
          exact ⟨pre, j1, post, rfl, fun k hk => hpre k (by simp [hk]), hj1⟩

/-- C11 at three fetched jobs, the second and third failing: the count is 2 and the error
returned is the one of the second job, whose body does not decode. -/
theorem PullJobs_Error_ErrorCount_witness :
    PullJobs.ErrorCount sampleEnv sampleJobs = 2 ∧
    PullJobs.Error sampleEnv sampleJobs =
      some (.wrapf "decoding %q failed - %v" ["A"] (.new "invalid token")) := by
  obtain ⟨-, h2, h3⟩ := PullJobs_Error_ErrorCount sampleEnv sampleJobs
  refine ⟨by rw [h2]; decide, ?_⟩
  exact (h3 _).mpr ⟨[sampleJob "A9"], sampleJob "zz", [{ sampleJob "" with StatusCode := 404 }],
    rfl, by decide, by rfl⟩

end Aggregate

section PullValidate

variable {σ : Type}

/-- C12. `PullParams.Validate` fails when neither `All` is set nor an account name is given,
without having read the store; it fails when the operator claim cannot be read or its
`AccountServerURL` is empty; it returns nil exactly when `All` is set or a name is given, and
the operator claim is readable with a non-empty `AccountServerURL`; the parameters are as
before. -/
theorem PullParams_Validate_spec (env : PullEnv σ) (s : σ) (operatorName : String)
    (p : PullParams) :
    (p.All = false ∧ p.Name = "" →
      (p.Validate env s operatorName).err = some (.new "specify --all or --account") ∧
      (p.Validate env s operatorName).storeReads = 0) ∧
    (((∃ e, env.ReadOperatorClaim s = .error e) ∨
        ∃ oc, env.ReadOperatorClaim s = .ok oc ∧ oc.AccountServerURL = "") →
      (p.Validate env s operatorName).err ≠ none) ∧
    ((p.Validate env s operatorName).err = none ↔
      (p.All = true ∨ p.Name ≠ "") ∧
        ∃ oc, env.ReadOperatorClaim s = .ok oc ∧ oc.AccountServerURL ≠ "") ∧
    (p.Validate env s operatorName).params = p := by
  by_cases hreq : ¬ p.All = true ∧ p.Name = ""
  · have hA : p.All = false := by simpa using hreq.1
    simp [PullParams.Validate, hA, hreq.2]
  · have hor : p.All = true ∨ p.Name ≠ "" := by
      by_cases hA : p.All = true
      · exact Or.inl hA
      · exact Or.inr (fun hn => hreq ⟨hA, hn⟩)
    have hnot : ¬ (p.All = false ∧ p.Name = "") := by
      rintro ⟨h1, h2⟩
      rcases hor with h | h
      · rw [h1] at h; cases h
      · exact h h2
    unfold PullParams.Validate
    rw [if_neg hreq]
    cases hr : env.ReadOperatorClaim s with
    | error e => simp [hnot]
    | ok oc =>
      by_cases hu : oc.AccountServerURL = ""
      · simp [hu, hnot]
      · simp [hu, hnot, hor]

/-- C12 at `pull --all` in the sample world, whose operator sets an account server URL. -/
theorem PullParams_Validate_spec_witness :
    (samplePullAll.Validate sampleEnv [] "O").err = none :=
  (PullParams_Validate_spec sampleEnv [] "O" samplePullAll).2.2.1.mpr
    ⟨Or.inl rfl, sampleOperator 3, rfl, by decide⟩

end PullValidate

section Numbers

theorem isDigit_toUpper (c : Char) (h : isDigit c = true) : c.toUpper = c := by
  have hmem : c ∈ digits := by simpa [isDigit] using h
  simp only [digits, List.mem_cons, List.mem_singleton, List.not_mem_nil, or_false] at hmem
  rcases hmem with rfl | rfl | rfl | rfl | rfl | rfl | rfl | rfl | rfl | rfl <;> decide

theorem isDigit_not_sign (c : Char) (h : isDigit c = true) : ¬ (c = '+' ∨ c = '-') := by
  have hmem : c ∈ digits := by simpa [isDigit] using h
  simp only [digits, List.mem_cons, List.mem_singleton, List.not_mem_nil, or_false] at hmem
  rcases hmem with rfl | rfl | rfl | rfl | rfl | rfl | rfl | rfl | rfl | rfl <;> decide

theorem map_toUpper_digits (d : List Char) (hd : ∀ c ∈ d, isDigit c = true) :
    d.map Char.toUpper = d := by
  induction d with
  | nil => rfl
  | cons c d ih =>
    simp only [List.map_cons]
    rw [isDigit_toUpper c (hd c (by simp)), ih (fun c hc => hd c (by simp [hc]))]

/-- A greedy `\d+` before text that does not start with a digit takes the whole run first. -/
theorem digitPlus_run (d r : List Char) (hne : d ≠ []) (hd : ∀ c ∈ d, isDigit c = true)
    (hr : digitPlus r = []) : ∃ tl, digitPlus (d ++ r) = (d, r) :: tl := by
  induction d with
  | nil => exact absurd rfl hne
  | cons c d ih =>
    have hc : isDigit c = true := hd c (by simp)
    cases d with
    | nil => exact ⟨[], by simp [digitPlus, hc, hr]⟩
    | cons c1 d1 =>
      obtain ⟨tl, htl⟩ := ih (by simp) (fun x hx => hd x (by simp [hx]))
      refine ⟨tl.map (fun mr => (c :: mr.1, mr.2)) ++ [([c], c1 :: d1 ++ r)], ?_⟩
      show digitPlus (c :: (c1 :: d1 ++ r)) = _
      rw [digitPlus, if_pos hc, htl]
      rfl

/-- Every way `\d+` matches splits the text into a non-empty run of digits and the rest. -/
theorem digitPlus_mem (l m r : List Char) (h : (m, r) ∈ digitPlus l) :
    l = m ++ r ∧ m ≠ [] ∧ ∀ c ∈ m, isDigit c = true := by
  induction l generalizing m r with
  | nil => simp [digitPlus] at h
  | cons c cs ih =>
    unfold digitPlus at h
    split at h
    · rename_i hc
      rcases List.mem_append.mp h with h1 | h1
      · obtain ⟨⟨m1, r1⟩, hmem, heq⟩ := List.mem_map.mp h1
        simp only [Prod.mk.injEq] at heq
        obtain ⟨rfl, rfl⟩ := heq
        obtain ⟨h2, -, h4⟩ := ih m1 r1 hmem
        refine ⟨by simp [h2], by simp, ?_⟩
        intro x hx
        rcases List.mem_cons.mp hx with rfl | hx
        · exact hc
        · exact h4 x hx
      · simp only [List.mem_singleton, Prod.mk.injEq] at h1
        obtain ⟨rfl, rfl⟩ := h1
        exact ⟨rfl, by simp, by simpa using hc⟩
    · simp at h

theorem matchDigitsEnd_some (l m : List Char) (h : matchDigitsEnd l = some m) :
    l = m ∧ m ≠ [] ∧ ∀ c ∈ m, isDigit c = true := by
  unfold matchDigitsEnd at h
  obtain ⟨⟨m1, r1⟩, hmem, hf⟩ := List.exists_of_findSome?_eq_some h
  obtain ⟨h1, h2, h3⟩ := digitPlus_mem l m1 r1 hmem
  by_cases hr : r1.isEmpty = true
  · simp only [hr, if_true, Option.some.injEq] at hf
    subst hf
    have : r1 = [] := by simpa using hr
    subst this
    exact ⟨by simpa using h1, h2, h3⟩
  · simp [hr] at hf

/-- A match of `(\d+$)` is a non-empty run of digits that ends the text. -/
theorem findDigitsEnd_some (l m : List Char) (h : findDigitsEnd l = some m) :
    ∃ pre, l = pre ++ m ∧ m ≠ [] ∧ ∀ c ∈ m, isDigit c = true := by
  induction l with
  | nil => simp [findDigitsEnd] at h
  | cons c cs ih =>
    unfold findDigitsEnd at h
    split at h
    · rename_i m1 hm1
      simp only [Option.some.injEq] at h
      subst h
      obtain ⟨h1, h2, h3⟩ := matchDigitsEnd_some _ _ hm1
      exact ⟨[], by simpa using h1, h2, h3⟩
    · obtain ⟨pre, h1, h2, h3⟩ := ih h
      exact ⟨c :: pre, by simp [h1], h2, h3⟩

theorem findDigitsEnd_digits (d : List Char) (hne : d ≠ []) (hd : ∀ c ∈ d, isDigit c = true) :
    findDigitsEnd d = some d := by
  obtain ⟨tl, htl⟩ := digitPlus_run d [] hne hd rfl
  rw [List.append_nil] at htl
  cases d with
  | nil => exact absurd rfl hne
  | cons c cs => simp [findDigitsEnd, matchDigitsEnd, htl]

theorem findDigitsEnd_unit (d : List Char) (u : Char) (hu : isDigit u = false) :
    findDigitsEnd (d ++ [u]) = none := by
  cases h : findDigitsEnd (d ++ [u]) with
  | none => rfl
  | some m =>
    obtain ⟨pre, h1, h2, h3⟩ := findDigitsEnd_some _ _ h
    have hlast : (d ++ [u]).getLast? = some u := by simp
    rw [h1, List.getLast?_append_of_ne_nil _ h2] at hlast
    have hmem : u ∈ m := List.mem_of_getLast?_eq_some hlast
    rw [h3 u hmem] at hu
    cases hu

theorem findScaled_unit (d : List Char) (u : Char) (hne : d ≠ [])
    (hd : ∀ c ∈ d, isDigit c = true) (hu : isDigit u = false) (hunit : isUnit u = true) :
    findScaled (d ++ [u]) = some (d, u) := by
  have hr : digitPlus [u] = [] := by simp [digitPlus, hu]
  obtain ⟨tl, htl⟩ := digitPlus_run d [u] hne hd hr
  cases d with
  | nil => exact absurd rfl hne
  | cons c cs =>
    show findScaled (c :: (cs ++ [u])) = _
    rw [findScaled]
    have : matchScaled (c :: (cs ++ [u])) = some (c :: cs, u) := by
      unfold matchScaled
      rw [show c :: (cs ++ [u]) = c :: cs ++ [u] from rfl, htl]
      simp [hunit]
    rw [this]

theorem ParseInt_digits (d : List Char) (hne : d ≠ []) (hd : ∀ c ∈ d, isDigit c = true)
    (hfit : decimalValue d < 2 ^ 63) : ParseInt d = ((decimalValue d : Int), none) := by
  cases d with
  | nil => exact absurd rfl hne
  | cons c cs =>
    have hc := isDigit_not_sign c (hd c (by simp))
    have hneg : ¬ c = '-' := fun h => hc (Or.inr h)
    have hall : (c :: cs).all isDigit = true := by
      rw [List.all_eq_true]
      exact hd
    have hplus : ¬ c = '+' := fun h => hc (Or.inl h)
    unfold ParseInt
    simp [hplus, hneg, hall]
    omega

theorem wrapInt64_fit (x : Int) (h0 : 0 ≤ x) (h1 : x < 2 ^ 63) : wrapInt64 x = x := by
  unfold wrapInt64
  omega

/-- The number `decimalValue` gives is the one the digits denote in base ten. -/
theorem decimalValue_eq_ofDigits (d : List Char) :
    decimalValue d = Nat.ofDigits 10 ((d.map (fun c => c.toNat - 48)).reverse) := by
  have key : ∀ (l : List Char) (a : Nat),
      l.foldl (fun n c => n * 10 + (c.toNat - 48)) a =
        a * 10 ^ l.length + Nat.ofDigits 10 ((l.map (fun c => c.toNat - 48)).reverse) := by
    intro l
    induction l with
    | nil => intro a; simp
    | cons c cs ih =>
      intro a
      simp only [List.foldl_cons, List.map_cons, List.reverse_cons, List.length_cons]
      rw [ih, Nat.ofDigits_append, Nat.ofDigits_singleton]
      simp only [List.length_reverse, List.length_map]
      ring
  simpa [decimalValue] using key d 0

theorem ParseNumber_scaled (d : List Char) (u U : Char) (f : Nat) (hne : d ≠ [])
    (hd : ∀ c ∈ d, isDigit c = true) (hU : u.toUpper = U)
    (hcase : (U = 'K' ∧ f = 1000) ∨ (U = 'M' ∧ f = 1000000) ∨ (U = 'G' ∧ f = 1000000000))
    (hfit : decimalValue d * f < 2 ^ 63) :
    ParseNumber (String.mk (d ++ [u])) = (((decimalValue d * f : Nat) : Int), none) := by
  have hs : ¬ String.mk (d ++ [u]) = "" := by
    intro h
    have := congrArg String.data h
    simp at this
  have hup : (ToUpper (String.mk (d ++ [u]))).toList = d ++ [U] := by
    simp [ToUpper, map_toUpper_digits d hd, hU]
  have hdig : isDigit U = false := by
    rcases hcase with ⟨rfl, -⟩ | ⟨rfl, -⟩ | ⟨rfl, -⟩ <;> decide
  have hunit : isUnit U = true := by
    rcases hcase with ⟨rfl, -⟩ | ⟨rfl, -⟩ | ⟨rfl, -⟩ <;> decide
  have hf : 1 ≤ f := by
    rcases hcase with ⟨-, rfl⟩ | ⟨-, rfl⟩ | ⟨-, rfl⟩ <;> decide
  have hv : decimalValue d < 2 ^ 63 := lt_of_le_of_lt (Nat.le_mul_of_pos_right _ hf) hfit
  have hwrap : wrapInt64 ((decimalValue d : Int) * (f : Int)) = ((decimalValue d * f : Nat) : Int) := by
    rw [← Nat.cast_mul]
    exact wrapInt64_fit _ (Int.ofNat_nonneg _) (by exact_mod_cast hfit)
  unfold ParseNumber
  rw [if_neg hs]
  simp only [hup, findDigitsEnd_unit d U hdig, findScaled_unit d U hne hd hdig hunit,
    ParseInt_digits d hne hd hv]
  rcases hcase with ⟨rfl, rfl⟩ | ⟨rfl, rfl⟩ | ⟨rfl, rfl⟩
  · simpa using hwrap
  · simpa using hwrap
  · simpa using hwrap

/-- C13. `ParseNumber` of the empty string is 0 without error; of a non-empty run `d` of
decimal digits whose value fits in 64 bits signed it is that value; of such a run followed by
`K`, `M` or `G`, in either case, it is the value times 1000, 1000000 or 1000000000, whenever the
product fits in 64 bits signed. -/
theorem ParseNumber_spec :
    ParseNumber "" = (0, none) ∧
    (∀ d : List Char, d ≠ [] → (∀ c ∈ d, isDigit c = true) → decimalValue d < 2 ^ 63 →
      ParseNumber (String.mk d) = ((decimalValue d : Int), none)) ∧
    (∀ (d : List Char) (u : Char) (f : Nat), d ≠ [] → (∀ c ∈ d, isDigit c = true) →
      (u, f) ∈ [('K', 1000), ('k', 1000), ('M', 1000000), ('m', 1000000),
        ('G', 1000000000), ('g', 1000000000)] →
      decimalValue d * f < 2 ^ 63 →
      ParseNumber (String.mk (d ++ [u])) = (((decimalValue d * f : Nat) : Int), none)) := by
  refine ⟨by decide, ?_, ?_⟩
  · intro d hne hd hfit
    have hs : ¬ String.mk d = "" := by
      intro h
      exact hne (by simpa using congrArg String.data h)
    have hup : (ToUpper (String.mk d)).toList = d := by
      simp [ToUpper, map_toUpper_digits d hd]
    unfold ParseNumber
    rw [if_neg hs]
    simp only [hup, findDigitsEnd_digits d hne hd, ParseInt_digits d hne hd hfit]
  · intro d u f hne hd hmem hfit
    simp only [List.mem_cons, Prod.mk.injEq, List.mem_singleton, List.not_mem_nil,
      or_false] at hmem
    rcases hmem with ⟨rfl, rfl⟩ | ⟨rfl, rfl⟩ | ⟨rfl, rfl⟩ | ⟨rfl, rfl⟩ | ⟨rfl, rfl⟩ | ⟨rfl, rfl⟩
    · exact ParseNumber_scaled d _ 'K' _ hne hd (by decide) (Or.inl ⟨rfl, rfl⟩) hfit
    · exact ParseNumber_scaled d _ 'K' _ hne hd (by decide) (Or.inl ⟨rfl, rfl⟩) hfit
    · exact ParseNumber_scaled d _ 'M' _ hne hd (by decide) (Or.inr (Or.inl ⟨rfl, rfl⟩)) hfit
    · exact ParseNumber_scaled d _ 'M' _ hne hd (by decide) (Or.inr (Or.inl ⟨rfl, rfl⟩)) hfit
    · exact ParseNumber_scaled d _ 'G' _ hne hd (by decide) (Or.inr (Or.inr ⟨rfl, rfl⟩)) hfit
    · exact ParseNumber_scaled d _ 'G' _ hne hd (by decide) (Or.inr (Or.inr ⟨rfl, rfl⟩)) hfit

/-- C13 at the texts `250` and `12k`. -/
theorem ParseNumber_spec_witness :
    ParseNumber "250" = (250, none) ∧ ParseNumber "12k" = (12000, none) :=
  ⟨ParseNumber_spec.2.1 ['2', '5', '0'] (by decide) (by decide) (by decide),
   ParseNumber_spec.2.2 ['1', '2'] 'k' 1000 (by decide) (by decide) (by decide) (by decide)⟩

/-- C14 at two failing inputs. In `9223372036854775807K` the digit run is the largest 64-bit
signed number, so `ParseInt` accepts it; the multiplication by 1000 wraps and `ParseNumber`
returns -1000 with a nil error. In `10000000000G` the product, ten to the nineteenth, wraps to a
negative number as well. -/
theorem ParseNumber_negative :
    ParseInt "9223372036854775807".toList = (9223372036854775807, none) ∧
    ParseNumber "9223372036854775807K" = (-1000, none) ∧
    ParseNumber "10000000000G" = (-8446744073709551616, none) := by
  decide

end Numbers

end Nsc
